import Mathlib

/-!
Shallow embedding of the document segmentation subsystem of the
pdf2neo4j-italian-tax pipeline: the TOC boundary detector
(src/pipeline/toc_extractor.py), the section segmenter and hierarchy builder
(src/pipeline/section_extractor.py) and the chunk generator
(src/pipeline/chunker.py), together with proofs about the claims of the
specification.

Strings are handled through their underlying character lists so that every
definition is executable by kernel reduction.  Python `str.strip` is modelled
by `trimChars` (whitespace per `Char.isWhitespace`), `str.split` by
`splitOnChar`, decimal formatting of integers by `natDecimal`, and
case-insensitive matching of the ASCII keywords by lowercasing both sides with
`Char.toLower`.
-/

namespace PdfTax

/-! ## Basic string utilities (models of the Python primitives) -/

/-- Model of Python `text.split(sep)` for a one-character separator: empty
parts are kept, and the empty string yields `[[]]`. -/
def splitOnChar (sep : Char) : List Char → List (List Char)
  | [] => [[]]
  | c :: cs =>
    if c = sep then [] :: splitOnChar sep cs
    else
      match splitOnChar sep cs with
      | r :: rs => (c :: r) :: rs
      | [] => [[c]]

/-- Model of Python `str.strip()`: drop whitespace from both ends. -/
def trimChars (cs : List Char) : List Char :=
  ((cs.dropWhile Char.isWhitespace).reverse.dropWhile Char.isWhitespace).reverse

/-- Model of Python `"\n".join(lines)`. -/
def joinLines : List (List Char) → List Char
  | [] => []
  | [l] => l
  | l :: r :: rs => l ++ '\n' :: joinLines (r :: rs)

/-- Decimal digit characters of `n`, most significant first; the first
argument is fuel (taking `n + 1` as fuel is always enough). -/
def decCharsAux : Nat → Nat → List Char
  | 0, _ => []
  | f + 1, n =>
    if n < 10 then [Nat.digitChar n]
    else decCharsAux f (n / 10) ++ [Nat.digitChar (n % 10)]

/-- Model of Python decimal formatting of a natural number (`str(n)`). -/
def decChars (n : Nat) : List Char := decCharsAux (n + 1) n

/-- Model of Python `str(n)` as a `String`. -/
def natDecimal (n : Nat) : String := ⟨decChars n⟩

/-- Numeric value of a digit string (used to show `decChars` is injective). -/
def decValue (cs : List Char) : Nat :=
  cs.foldl (fun a c => a * 10 + (c.toNat - 48)) 0

/-- Model of Python `int(s)` on a string of decimal digits. -/
def readNat (cs : List Char) : Nat := decValue cs

/-! ## Data model (src/pipeline/models.py, the fields the segmentation core
uses) -/

/-- The slice of the `Document` dataclass consumed by the segmentation core:
its identifier, its type tag and its full text. -/
structure Document where
  documentId : String
  type : String
  fullText : String
  deriving Repr, DecidableEq

/-- The `TableOfContents` dataclass.  `startPage` and `endPage` are kept as
integers because `endPage` is computed as `candidate page - 1` in Python,
which can be any integer. -/
structure TableOfContents where
  tocId : String
  documentId : String
  rawText : String
  startPage : Int
  endPage : Int
  hasHeader : Bool
  headerText : Option String
  entryCount : Nat
  detectionMethod : String
  deriving Repr, DecidableEq

/-- The two values the extractor stores in `Section.sectionType`
("named" and "numbered"). -/
inductive SectionType where
  | named
  | numbered
  deriving Repr, DecidableEq

/-- The `Section` dataclass (without the embedding field, which the
segmentation core never touches). -/
structure Section where
  sectionId : String
  documentId : String
  sectionNumber : String
  title : String
  content : String
  sectionType : SectionType
  level : Nat
  pageNumber : Nat
  order : Nat
  parentSectionId : Option String
  deriving Repr, DecidableEq

/-- The metadata dictionary attached to every chunk by `_create_chunk`. -/
structure ChunkMeta where
  section_number : String
  section_type : SectionType
  deriving Repr, DecidableEq

/-- The `Chunk` dataclass (without the embedding field). -/
structure Chunk where
  chunkId : String
  documentId : String
  sectionId : String
  content : String
  chunkIndex : Nat
  pageNumber : Nat
  metadata : ChunkMeta
  deriving Repr, DecidableEq

/-! ## Heading classification (SectionExtractor patterns)

The regexes of `section_extractor.py` are embedded as deterministic
scanners; each pattern is anchored (`re.match`) and its quantifiers are
followed by a disjoint character class, so a maximal-munch scan is an exact
model of the regex with backtracking. -/

/-- Character class `[A-ZÀ-Ÿ]` of the numbered heading patterns: ASCII
capitals plus the Unicode range U+00C0 to U+0178. -/
def isUpperTitle (c : Char) : Bool :=
  ('A' ≤ c && c ≤ 'Z') || (0xC0 ≤ c.toNat && c.toNat ≤ 0x178)

/-- Case-insensitive match of the keyword `ks` at the start of `cs`
(Python `re.match` with `re.IGNORECASE` on an ASCII keyword), returning
the rest of the input. -/
def dropKeyword : List Char → List Char → Option (List Char)
  | [], cs => some cs
  | _ :: _, [] => none
  | k :: ks, c :: cs =>
    if k.toLower = c.toLower then dropKeyword ks cs else none

/-- `re.match` of `^KEYWORD` (case-insensitive): the trailing `\s*:?` of the
named patterns always matches the empty string, so the keyword alone
decides. -/
def namedLit (kw : String) (cs : List Char) : Bool :=
  (dropKeyword kw.data cs).isSome

/-- `re.match` of `^W1\s+W2` (case-insensitive), as used by the
`SOLUZIONE INTERPRETATIVA` and `PARERE DELL` patterns. -/
def namedPair (w1 w2 : String) (cs : List Char) : Bool :=
  match dropKeyword w1.data cs with
  | none => false
  | some r =>
    match r with
    | [] => false
    | c :: rest =>
      c.isWhitespace && namedLit w2 (rest.dropWhile Char.isWhitespace)

/-- `self.named_sections` of `SectionExtractor.__init__`, in order. -/
def namedSectionMatch (cs : List Char) : Bool :=
  namedLit "OGGETTO" cs || namedLit "QUESITO" cs ||
  namedPair "SOLUZIONE" "INTERPRETATIVA" cs || namedPair "PARERE" "DELL" cs ||
  namedLit "MOTIVAZIONE" cs || namedLit "CONCLUSIONE" cs ||
  namedLit "INDICE" cs || namedLit "PREMESSA" cs ||
  namedLit "RISPOSTA" cs || namedLit "ISTANZA" cs || namedLit "SOMMARIO" cs

/-- `\d+` at the start of the input: require one digit, then munch the
maximal digit run; returns the rest. -/
def dropDigits1 : List Char → Option (List Char)
  | c :: cs => if c.isDigit then some (cs.dropWhile Char.isDigit) else none
  | [] => none

/-- `\s+` at the start of the input. -/
def dropWs1 : List Char → Option (List Char)
  | c :: cs =>
    if c.isWhitespace then some (cs.dropWhile Char.isWhitespace) else none
  | [] => none

/-- A literal single character. -/
def dropLit (x : Char) : List Char → Option (List Char)
  | c :: cs => if c = x then some cs else none
  | [] => none

/-- `[A-ZÀ-Ÿ]` at the start of the input. -/
def headUpper : List Char → Bool
  | c :: _ => isUpperTitle c
  | [] => false

/-- `^\d+\.\s+[A-ZÀ-Ÿ]` ("1. TITLE"). -/
def numberedPat1 (cs : List Char) : Bool :=
  match (dropDigits1 cs).bind (dropLit '.') |>.bind dropWs1 with
  | some r => headUpper r
  | none => false

/-- `^\d+\.\d+\s+[A-ZÀ-Ÿ]` ("1.1 TITLE"). -/
def numberedPat2 (cs : List Char) : Bool :=
  match (dropDigits1 cs).bind (dropLit '.') |>.bind dropDigits1 |>.bind dropWs1 with
  | some r => headUpper r
  | none => false

/-- `^\d+\.\d+\.\d+\s+[A-ZÀ-Ÿ]` ("1.1.1 TITLE"). -/
def numberedPat3 (cs : List Char) : Bool :=
  match (dropDigits1 cs).bind (dropLit '.') |>.bind dropDigits1 |>.bind (dropLit '.')
      |>.bind dropDigits1 |>.bind dropWs1 with
  | some r => headUpper r
  | none => false

/-- `^\d+\s+[A-ZÀ-Ÿ][A-ZÀ-Ÿ\s]{10,}` ("1 LONG TITLE", at least ten further
characters of capitals or whitespace). -/
def numberedPat4 (cs : List Char) : Bool :=
  match (dropDigits1 cs).bind dropWs1 with
  | some (c :: r) =>
    isUpperTitle c &&
      10 ≤ (r.takeWhile (fun d => isUpperTitle d || d.isWhitespace)).length
  | _ => false

/-- `self.numbered_patterns`, in order. -/
def numberedSectionMatch (cs : List Char) : Bool :=
  numberedPat1 cs || numberedPat2 cs || numberedPat3 cs || numberedPat4 cs

/-- `SectionExtractor._is_section_header` applied to a stripped line.  The
level component of the Python triple is never read by the caller (the level
stored in the section is recomputed with `_extract_level`), so only the
section type is returned. -/
def isSectionHeaderLine (cs : List Char) : Option SectionType :=
  if namedSectionMatch cs then some SectionType.named
  else if numberedSectionMatch cs then some SectionType.numbered
  else none

/-! ## Level and section-number extraction -/

/-- Continuation of `^(\d+(?:\.\d+)*)` after the leading digit run: collects
the further `.digits` groups, returning the matched characters and the
number of extra groups. -/
def scanNumGroups : List Char → List Char × Nat
  | [] => ([], 0)
  | c :: cs =>
    if c.isDigit then
      let (t, g) := scanNumGroups cs
      (c :: t, g)
    else if c = '.' then
      match cs with
      | d :: ds =>
        if d.isDigit then
          let (t, g) := scanNumGroups ds
          ('.' :: d :: t, g + 1)
        else ([], 0)
      | [] => ([], 0)
    else ([], 0)

/-- `re.match(r'^(\d+(?:\.\d+)*)', header)`: the dotted numbering at the
start of a header, together with the number of dot-separated groups. -/
def matchNumbering : List Char → Option (List Char × Nat)
  | c :: cs =>
    if c.isDigit then
      let (t, g) := scanNumGroups cs
      some (c :: t, g + 1)
    else none
  | [] => none

/-- `SectionExtractor._extract_level`: the number of dot-separated groups of
the leading numbering, or 1 for named (non-numbered) headers. -/
def extract_level (header : List Char) : Nat :=
  match matchNumbering header with
  | some (_, g) => g
  | none => 1

/-- Character class `[A-ZÀ-Ÿ\s]` under `re.IGNORECASE` (ASCII case
folding): the class itself, lowercase ASCII letters, and whitespace. -/
def isNameClass (c : Char) : Bool :=
  isUpperTitle c || isUpperTitle c.toUpper || c.isWhitespace

/-- `SectionExtractor._extract_section_number`: the dotted numbering if the
header starts with one, else the canonical uppercase section name for named
headers, else "UNKNOWN". -/
def extract_section_number (header : List Char) : String :=
  match matchNumbering header with
  | some (t, _) => ⟨t⟩
  | none =>
    if namedSectionMatch header then
      let run := header.takeWhile isNameClass
      if run ≠ [] then ⟨(trimChars run).map Char.toUpper⟩ else "UNKNOWN"
    else "UNKNOWN"

/-! ## The segmentation loop of `SectionExtractor.extract_sections` -/

/-- `SectionExtractor._create_section`.  The section id is built from the
document id and the running counter, the title is the header truncated to
200 characters, and the content is the stripped newline-join of the
buffered lines. -/
def _create_section (docId : String) (order : Nat) (header : List Char)
    (contentLines : List (List Char)) (sectionType : SectionType)
    (pageNumber : Nat) (level : Nat) : Section :=
  { sectionId := docId ++ "_SEC_" ++ natDecimal order
    documentId := docId
    sectionNumber := extract_section_number header
    title := ⟨header.take 200⟩
    content := ⟨trimChars (joinLines contentLines)⟩
    sectionType := sectionType
    level := level
    pageNumber := pageNumber
    order := order
    parentSectionId := none }

/-- Python `lines_per_page = 50`, the fixed page-density constant. -/
def lines_per_page : Nat := 50

/-- One pass of the `for line_num, line in enumerate(lines)` loop of
`extract_sections`, written so that the function returns the sections it
will emit from this point on.  The state is the line index `i`, the page
estimate of the last processed line, the open header together with its
section type (Python `current_section_header` and `current_section_type`,
where a non-`none` header is never empty), the buffered content lines and
the running section counter. -/
def segAux (docId : String) :
    List (List Char) → Nat → Nat → Option (List Char × SectionType) →
    List (List Char) → Nat → List Section
  | [], _, page, openHeader, buf, counter =>
    match openHeader with
    | some (h, ty) =>
      if buf ≠ [] then
        [_create_section docId counter h buf ty page (extract_level h)]
      else []
    | none => []
  | l :: ls, i, _, openHeader, buf, counter =>
    let page := i / lines_per_page + 1
    let t := trimChars l
    if t = [] then segAux docId ls (i + 1) page openHeader buf counter
    else
      match isSectionHeaderLine t with
      | some ty =>
        match openHeader with
        | some (h, hty) =>
          if buf ≠ [] then
            _create_section docId counter h buf hty page (extract_level h) ::
              segAux docId ls (i + 1) page (some (t, ty)) [] (counter + 1)
          else segAux docId ls (i + 1) page (some (t, ty)) [] counter
        | none => segAux docId ls (i + 1) page (some (t, ty)) [] counter
      | none =>
        match openHeader with
        | some _ => segAux docId ls (i + 1) page openHeader (buf ++ [l]) counter
        | none => segAux docId ls (i + 1) page openHeader buf counter

/-- The flat section list built by the line loop of `extract_sections`,
before TOC filtering, re-numbering and hierarchy assignment. -/
def raw_sections (doc : Document) : List Section :=
  segAux doc.documentId (splitOnChar '\n' doc.fullText.data) 0 1 none [] 0

/-- `SectionExtractor._filter_toc_sections`: drop a section when its
estimated page lies in the TOC page range and its content is shorter than
100 characters. -/
def _filter_toc_sections (toc : TableOfContents) : List Section → List Section
  | [] => []
  | s :: rest =>
    if toc.startPage ≤ (s.pageNumber : Int) ∧ (s.pageNumber : Int) ≤ toc.endPage then
      if s.content.length < 100 then _filter_toc_sections toc rest
      else s :: _filter_toc_sections toc rest
    else s :: _filter_toc_sections toc rest

/-- The `for i, section in enumerate(sections): section.order = i` pass of
`extract_sections`. -/
def renumber (i : Nat) : List Section → List Section
  | [] => []
  | s :: rest => { s with order := i } :: renumber (i + 1) rest

/-- Lookup in the `parent_stack` dictionary (level to most recent section
recorded at that level). -/
def lookupLevel (lv : Nat) : List (Nat × Section) → Option Section
  | [] => none
  | (k, p) :: rest => if k = lv then some p else lookupLevel lv rest

/-- The per-section body of the `_build_hierarchy` loop: link the section
to the recorded section one level up, when its level exceeds 1 and such a
record exists. -/
def bhStep (stack : List (Nat × Section)) (s : Section) : Section :=
  if 1 < s.level then
    match lookupLevel (s.level - 1) stack with
    | some p => { s with parentSectionId := some p.sectionId }
    | none => s
  else s

/-- `SectionExtractor._build_hierarchy`: a single pass that links each
section of level `L > 1` to the most recent section recorded at level
`L - 1`, records the section at its own level, and discards every record
deeper than `L`. -/
def _build_hierarchy (stack : List (Nat × Section)) : List Section → List Section
  | [] => []
  | s :: rest =>
    let s2 := bhStep stack s
    s2 :: _build_hierarchy ((s.level, s2) :: stack.filter (fun q => q.1 < s.level)) rest

/-- `SectionExtractor.extract_sections`: segment, filter TOC sections when a
TOC is supplied, re-number densely, and build the hierarchy. -/
def extract_sections (doc : Document) (toc : Option TableOfContents) : List Section :=
  let sections := raw_sections doc
  let sections :=
    match toc with
    | some t => _filter_toc_sections t sections
    | none => sections
  _build_hierarchy [] (renumber 0 sections)

/-! ## TOC boundary detection (`TOCExtractor.extract_toc`)

The PDF handle of the Python code is modelled by the list of per-page
texts (`pages`), 0-indexed like `fitz` page access; `len(doc)` is
`pages.length`. -/

/-- Case-sensitive literal match at the start of the input, returning the
rest. -/
def dropKeywordExact : List Char → List Char → Option (List Char)
  | [], cs => some cs
  | _ :: _, [] => none
  | k :: ks, c :: cs => if k = c then dropKeywordExact ks cs else none

/-- Substring test: does `pat` occur anywhere in `cs`?  (Python `in`.) -/
def containsSeq (pat : List Char) : List Char → Bool
  | [] => pat.isEmpty
  | c :: cs => (dropKeywordExact pat (c :: cs)).isSome || containsSeq pat cs

/-- `re.search` of `PREMESSA[\s.]+(\d+)` (case-insensitive): the leftmost
occurrence of the keyword followed by at least one whitespace or dot and a
digit run; returns the number captured by the digit group. -/
def findPremessaNum : List Char → Option Nat
  | [] => none
  | c :: cs =>
    match dropKeyword "PREMESSA".data (c :: cs) with
    | some after =>
      let run := after.takeWhile (fun d => d.isWhitespace || d = '.')
      let rest := after.dropWhile (fun d => d.isWhitespace || d = '.')
      match rest with
      | d :: _ =>
        if run ≠ [] ∧ d.isDigit then some (readNat (rest.takeWhile Char.isDigit))
        else findPremessaNum cs
      | [] => findPremessaNum cs
    | none => findPremessaNum cs

/-- `re.search` of `1\.1[^\d]*(\d+)`: the leftmost occurrence of "1.1"
followed (after any non-digits) by a digit run; returns the captured
number. -/
def findFirstSectionNum : List Char → Option Nat
  | [] => none
  | c :: cs =>
    match dropKeywordExact "1.1".data (c :: cs) with
    | some after =>
      let rest := after.dropWhile (fun d => !d.isDigit)
      match rest with
      | _ :: _ => some (readNat (rest.takeWhile Char.isDigit))
      | [] => findFirstSectionNum cs
    | none => findFirstSectionNum cs

/-- `fitz` page access `doc[i]` where `i` may be `-1` (Python negative
indexing reaches the last page); out-of-range access cannot occur on the
paths on which this model is used. -/
def getPageAt (pages : List (List Char)) (i : Int) : List Char :=
  if 0 ≤ i then pages.getD i.toNat []
  else pages.getD (pages.length - (-i).toNat) []

/-- The `INDICE`/`SOMMARIO` header search on the TOC page
(`re.search` of `^\s*(INDICE|SOMMARIO)\s*$` under `re.MULTILINE` and
`re.IGNORECASE`): the first line whose stripped uppercase form is one of
the two words, yielding that word. -/
def tocHeaderWord (pageText : List Char) : Option String :=
  match (splitOnChar '\n' pageText).find?
      (fun l =>
        let t : List Char := (trimChars l).map Char.toUpper
        t = "INDICE".data ∨ t = "SOMMARIO".data) with
  | some l => some ⟨(trimChars l).map Char.toUpper⟩
  | none => none

/-- One line of the TOC entry count: `^\s*\d+\.` (leading whitespace, a
digit run, a dot). -/
def isEntryLine (l : List Char) : Bool :=
  let r := l.dropWhile Char.isWhitespace
  match dropDigits1 r with
  | some rest =>
    match rest with
    | '.' :: _ => true
    | _ => false
  | none => false

/-- `re.findall(r'^\s*\d+\.', text, re.MULTILINE)` count: one match per
line that starts (after whitespace) with a dotted number. -/
def countEntryLines (text : List Char) : Nat :=
  (splitOnChar '\n' text).countP (fun l => isEntryLine l)

/-- The page concatenation `for page_num in range(1, toc_end_page)` that
builds the raw TOC text (each page followed by a newline). -/
def tocRawText (pages : List (List Char)) (tocEndPage : Int) : List Char :=
  (List.range' 1 (tocEndPage.toNat - 1)).foldl
    (fun acc i => if i < pages.length then acc ++ pages.getD i [] ++ ['\n'] else acc) []

/-- Validation of the PREMESSA candidate page: the keyword must appear in
the uppercased first 500 characters of the candidate page itself. -/
def premessaValidated (pages : List (List Char)) (candidate : Nat) : Bool :=
  candidate ≤ pages.length &&
    containsSeq "PREMESSA".data
      (((getPageAt pages ((candidate : Int) - 1)).map Char.toUpper).take 500)

/-- Validation of the first-section candidate page: "1.1" must appear in
the first 200 characters of the candidate page. -/
def firstSectionValidated (pages : List (List Char)) (candidate : Nat) : Bool :=
  candidate ≤ pages.length &&
    containsSeq "1.1".data ((getPageAt pages ((candidate : Int) - 1)).take 200)

/-- Method 2 of the boundary detection (tried when method 1 leaves
`toc_end_page` unset): the validated first-subsection candidate. -/
def tocFirstSectionEnd (pages : List (List Char)) (page2 : List Char) :
    Option (Int × String) :=
  match findFirstSectionNum page2 with
  | some c =>
    if firstSectionValidated pages c then some ((c : Int) - 1, "FIRST_SECTION")
    else none
  | none => none

/-- The ranked boundary detection of `extract_toc`: the validated PREMESSA
candidate first, the validated first-subsection candidate second, each
yielding `candidate page - 1` and the strategy name. -/
def tocEndCandidate (pages : List (List Char)) (page2 : List Char) :
    Option (Int × String) :=
  match findPremessaNum page2 with
  | some c =>
    if premessaValidated pages c then some ((c : Int) - 1, "PREMESSA")
    else tocFirstSectionEnd pages page2
  | none => tocFirstSectionEnd pages page2

/-- `TOCExtractor.extract_toc`.  Only `Circolare` documents with at least
two pages are inspected; the boundary is detected on page 2 via the
PREMESSA anchor first and the first-subsection fallback second, each
validated against the candidate page; on success the record covers pages 2
to `candidate - 1`. -/
def extract_toc (doc : Document) (pages : List (List Char)) : Option TableOfContents :=
  if doc.type ≠ "Circolare" then none
  else if pages.length < 2 then none
  else
    let page2 := pages.getD 1 []
    let headerWord := tocHeaderWord page2
    match tocEndCandidate pages page2 with
    | none => none
    | some (tocEndPage, method) =>
      let raw := tocRawText pages tocEndPage
      some
        { tocId := doc.documentId ++ "_TOC"
          documentId := doc.documentId
          rawText := ⟨trimChars raw⟩
          startPage := 2
          endPage := tocEndPage
          hasHeader := headerWord.isSome
          headerText := headerWord
          entryCount := countEntryLines raw
          detectionMethod := method }

/-! ## Chunking (`Chunker`, src/pipeline/chunker.py) -/

/-- The chunker configuration (`Chunker.__init__`): target chunk size and
overlap, both in tokens. -/
structure Chunker where
  chunk_size : Nat
  overlap : Nat
  deriving Repr, DecidableEq

/-- `self.chars_per_token = 4`. -/
def chars_per_token : Nat := 4

/-- The default configuration `Chunker(chunk_size=512, overlap=50)`. -/
def defaultChunker : Chunker := { chunk_size := 512, overlap := 50 }

/-- A sentence terminator (`[.!?]`). -/
def isTermin (c : Char) : Bool := c = '.' || c = '!' || c = '?'

/-- Scanner state for `re.split(r'([.!?]+[\s\n]+)', text)`: scanning plain
text, inside a terminator run, or inside the whitespace following a
terminator run (the runs are carried reversed). -/
inductive SplitMode where
  | norm
  | term (accR : List Char)
  | ws (accR accW : List Char)

/-- `re.split(r'([.!?]+[\s\n]+)', text)`: the interleaved list of pieces and
separators (a separator is a maximal terminator run followed by a maximal
whitespace run); a terminator run not followed by whitespace stays inside
its piece. -/
def splitPieces : List Char → SplitMode → List Char → List (List Char)
  | [], mode, accP =>
    match mode with
    | SplitMode.norm => [accP.reverse]
    | SplitMode.term accR => [accP.reverse ++ accR.reverse]
    | SplitMode.ws accR accW => [accP.reverse, accR.reverse ++ accW.reverse, []]
  | c :: cs, mode, accP =>
    match mode with
    | SplitMode.norm =>
      if isTermin c then splitPieces cs (SplitMode.term [c]) accP
      else splitPieces cs SplitMode.norm (c :: accP)
    | SplitMode.term accR =>
      if isTermin c then splitPieces cs (SplitMode.term (c :: accR)) accP
      else if c.isWhitespace then splitPieces cs (SplitMode.ws accR [c]) accP
      else splitPieces cs SplitMode.norm (c :: (accR ++ accP))
    | SplitMode.ws accR accW =>
      if c.isWhitespace then splitPieces cs (SplitMode.ws accR (c :: accW)) accP
      else
        accP.reverse :: (accR.reverse ++ accW.reverse) ::
          (if isTermin c then splitPieces cs (SplitMode.term [c]) []
           else splitPieces cs SplitMode.norm [c])

/-- The recombination loop of `_split_into_sentences`: glue each piece to
its following separator, strip it, and keep it when non-empty; the final
lone piece is stripped and kept when non-empty. -/
def recombinePairs : List (List Char) → List (List Char)
  | p :: s :: rest =>
    let sent := trimChars (p ++ s)
    if sent ≠ [] then sent :: recombinePairs rest else recombinePairs rest
  | [p] => if trimChars p ≠ [] then [trimChars p] else []
  | [] => []

/-- `Chunker._split_into_sentences`: split on sentence boundaries, keep the
punctuation with its sentence, and fall back to the whole text when
nothing survives. -/
def _split_into_sentences (text : List Char) : List (List Char) :=
  let result := recombinePairs (splitPieces text SplitMode.norm [])
  if result = [] then [text] else result

/-- Python `text[-n:]` for `n = overlap_chars`: the whole text when `n` is
zero (Python `-0` is `0`), otherwise the last `n` characters. -/
def pyTail (t : List Char) (n : Nat) : List Char :=
  if n = 0 then t else t.drop (t.length - n)

/-- `re.search(r'[.!?]\s+', text)` followed by `text[match.end():]`: the
rest of the text after the first terminator-plus-whitespace boundary. -/
def findSentRest : List Char → Option (List Char)
  | [] => none
  | c :: cs =>
    if isTermin c then
      match cs with
      | d :: ds =>
        if d.isWhitespace then some (ds.dropWhile Char.isWhitespace)
        else findSentRest cs
      | [] => none
    else findSentRest cs

/-- `Chunker._get_overlap_text`: the last `overlap_chars` characters of the
buffer (the whole buffer when it is no longer, or when `overlap_chars` is
zero), advanced past the first sentence boundary inside the slice when one
exists. -/
def _get_overlap_text (text : List Char) (overlapChars : Nat) : List Char :=
  if text.length ≤ overlapChars then text
  else
    let overlapText := pyTail text overlapChars
    match findSentRest overlapText with
    | some rest => rest
    | none => overlapText

/-- `Chunker._create_chunk`. -/
def _create_chunk (s : Section) (chunkIndex : Nat) (content : List Char)
    (pageNumber : Nat) : Chunk :=
  { chunkId := s.sectionId ++ "_CHK_" ++ natDecimal chunkIndex
    documentId := s.documentId
    sectionId := s.sectionId
    content := ⟨content⟩
    chunkIndex := chunkIndex
    pageNumber := pageNumber
    metadata := { section_number := s.sectionNumber, section_type := s.sectionType } }

/-- The sentence loop of `chunk_section`: greedily accumulate sentences
into the buffer, close the buffer (stripped) when the next sentence would
push it past the size budget, seed the next buffer with the overlap text,
and flush the final buffer when its stripped form is non-empty. -/
def chunkAux (ck : Chunker) (s : Section) :
    List (List Char) → List Char → Nat → List Chunk
  | [], cur, idx =>
    if trimChars cur ≠ [] then [_create_chunk s idx (trimChars cur) s.pageNumber]
    else []
  | sent :: rest, cur, idx =>
    if ck.chunk_size * chars_per_token < cur.length + sent.length ∧ cur ≠ [] then
      _create_chunk s idx (trimChars cur) s.pageNumber ::
        chunkAux ck s rest
          (_get_overlap_text cur (ck.overlap * chars_per_token) ++ ' ' :: sent)
          (idx + 1)
    else chunkAux ck s rest (cur ++ ' ' :: sent) idx

/-- `Chunker.chunk_section`: a single verbatim chunk for empty or short
content, the sentence loop otherwise. -/
def chunk_section (ck : Chunker) (s : Section) : List Chunk :=
  if s.content.data = [] ∨ s.content.length < 100 then
    [_create_chunk s 0 s.content.data s.pageNumber]
  else chunkAux ck s (_split_into_sentences s.content.data) [] 0

/-- The successive buffers closed by the sentence loop of `chunk_section`
(same control flow as `chunkAux`, recording the buffer instead of the
stripped chunk).  Used to state the corrected overlap property. -/
def chunkBuffers (ck : Chunker) : List (List Char) → List Char → List (List Char)
  | [], cur => if trimChars cur ≠ [] then [cur] else []
  | sent :: rest, cur =>
    if ck.chunk_size * chars_per_token < cur.length + sent.length ∧ cur ≠ [] then
      cur :: chunkBuffers ck rest
        (_get_overlap_text cur (ck.overlap * chars_per_token) ++ ' ' :: sent)
    else chunkBuffers ck rest (cur ++ ' ' :: sent)

/-! ## Spec-side definitions

These definitions follow the wording of the specification (not the code)
and are used to state refinement theorems: `specSections` renders §4.2 of
the spec ("content is the trimmed join of buffered lines", buffering the
lines strictly between a heading and the next heading), and `tocDiscards`
renders the dual filtering condition of §4.2. -/

/-- A line classified as a heading (after stripping). -/
def isHeadLine (l : List Char) : Bool := (isSectionHeaderLine (trimChars l)).isSome

/-- Modelled from the spec: the contents of the emitted sections are, for
each heading, the trimmed newline-join of the stripped-non-blank lines
strictly between that heading line and the next heading line (or the end
of input); a heading with no such lines emits nothing. -/
def specSections : List (List Char) → List (List Char)
  | [] => []
  | l :: ls =>
    if isHeadLine l then
      let body := ls.takeWhile (fun x => !isHeadLine x)
      let kept := body.filter (fun x => !(trimChars x).isEmpty)
      (if kept.isEmpty then [] else [trimChars (joinLines kept)]) ++
        specSections (ls.dropWhile (fun x => !isHeadLine x))
    else specSections ls
  termination_by l => l.length
  decreasing_by
  · simp only [List.length_cons]
    exact Nat.lt_succ_of_le (List.dropWhile_sublist _).length_le
  · simp

/-- Generalisation of `specSections` to a loop in progress: the contents
still to be emitted when the remaining lines are `ls`, a section is open
exactly when `op` is `some`, and `buf` holds its buffered lines. -/
def specWith (buf : List (List Char)) (op : Option (List Char × SectionType))
    (ls : List (List Char)) : List (List Char) :=
  match op with
  | some _ =>
    (if (buf ++ (ls.takeWhile (fun x => !isHeadLine x)).filter
          (fun x => !(trimChars x).isEmpty)).isEmpty then []
     else
       [trimChars (joinLines (buf ++ (ls.takeWhile (fun x => !isHeadLine x)).filter
          (fun x => !(trimChars x).isEmpty)))]) ++
      specSections (ls.dropWhile (fun x => !isHeadLine x))
  | none => specSections ls

/-- The specification's discard condition for TOC filtering: the section's
estimated page lies in the TOC page range and its content is shorter than
100 characters. -/
def tocDiscards (t : TableOfContents) (s : Section) : Prop :=
  t.startPage ≤ (s.pageNumber : Int) ∧ (s.pageNumber : Int) ≤ t.endPage ∧
    s.content.length < 100

instance (t : TableOfContents) (s : Section) : Decidable (tocDiscards t s) := by
  unfold tocDiscards
  exact inferInstance

/-! ## Concrete inputs used by witnesses and counterexamples -/

/-- A document whose first heading is immediately followed by a second
heading. -/
def docC1 : Document :=
  { documentId := "D1", type := "Risposta",
    fullText := "OGGETTO\nQUESITO\ntesto del corpo" }

/-- The single section extracted from `docC1`. -/
def secC1q : Section :=
  { sectionId := "D1_SEC_0", documentId := "D1", sectionNumber := "QUESITO",
    title := "QUESITO", content := "testo del corpo",
    sectionType := SectionType.named, level := 1, pageNumber := 1, order := 0,
    parentSectionId := none }

/-- A document with a blank line inside a section body. -/
def docC4 : Document :=
  { documentId := "D4", type := "Risposta",
    fullText := "OGGETTO\nprima riga\n\nseconda riga" }

/-- A document with a level-1 heading followed by a level-2 heading. -/
def docC6 : Document :=
  { documentId := "D6", type := "Risposta",
    fullText := "1. ALPHA TITLE\ncorpo uno\n1.1 BETA\ncorpo due" }

/-- The child section extracted from `docC6`. -/
def secC6beta : Section :=
  { sectionId := "D6_SEC_1", documentId := "D6", sectionNumber := "1.1",
    title := "1.1 BETA", content := "corpo due",
    sectionType := SectionType.numbered, level := 2, pageNumber := 1, order := 1,
    parentSectionId := some "D6_SEC_0" }

/-- A document whose first section is short enough to be TOC-filtered. -/
def docC10 : Document :=
  { documentId := "C10", type := "Risposta",
    fullText := "OGGETTO\nbreve\nQUESITO\n" ++ ⟨List.replicate 120 'B'⟩ }

/-- A TOC boundary covering page 1, used to filter `docC10`. -/
def tocC10 : TableOfContents :=
  { tocId := "C10_TOC", documentId := "C10", rawText := "", startPage := 1,
    endPage := 1, hasHeader := false, headerText := none, entryCount := 0,
    detectionMethod := "PREMESSA" }

/-- A `Circolare` whose TOC page cites PREMESSA at page 2, so that the
candidate validates against the TOC page itself. -/
def docC3 : Document := { documentId := "D3", type := "Circolare", fullText := "" }

/-- Page texts for `docC3`. -/
def pagesC3 : List (List Char) := ["prima pagina".data, "PREMESSA.. 2".data]

/-- Page texts for a well-formed `Circolare` (PREMESSA is cited at page 3
and really starts there). -/
def pagesC3ok : List (List Char) :=
  ["prima pagina".data, "PREMESSA 3".data, "PREMESSA testo reale".data]

/-- The boundary record `extract_toc` produces on `pagesC3`. -/
def tocC3bad : TableOfContents :=
  { tocId := "D3_TOC", documentId := "D3", rawText := "", startPage := 2,
    endPage := 1, hasHeader := false, headerText := none, entryCount := 0,
    detectionMethod := "PREMESSA" }

/-- The boundary record `extract_toc` produces on `pagesC3ok`. -/
def tocC3good : TableOfContents :=
  { tocId := "D3_TOC", documentId := "D3", rawText := "PREMESSA 3",
    startPage := 2, endPage := 2, hasHeader := false, headerText := none,
    entryCount := 0, detectionMethod := "PREMESSA" }

/-- A section template for the chunking claims. -/
def secOf (c : String) : Section :=
  { sectionId := "S_SEC_0", documentId := "S", sectionNumber := "OGGETTO",
    title := "OGGETTO", content := c, sectionType := SectionType.named,
    level := 1, pageNumber := 1, order := 0, parentSectionId := none }

/-- A section with empty content. -/
def secC2 : Section := secOf ""

/-- A section with content of exactly 90 characters. -/
def secC8 : Section := secOf ⟨List.replicate 90 'a'⟩

/-- A section with 100 characters of content forming a single sentence. -/
def secC2w : Section := secOf ⟨List.replicate 100 'A'⟩

/-- A 125-character section engineered so that the overlap slice starts
with a space and contains no sentence boundary. -/
def secC9 : Section :=
  secOf (⟨List.replicate 111 'A'⟩ ++ " QRSTUV. BBBB.")

/-- A chunker configuration under which `secC9` splits into two chunks. -/
def ckC9 : Chunker := { chunk_size := 30, overlap := 2 }

/-- The short first section extracted from `docC10`. -/
def secC10short : Section :=
  { sectionId := "C10_SEC_0", documentId := "C10", sectionNumber := "OGGETTO",
    title := "OGGETTO", content := "breve", sectionType := SectionType.named,
    level := 1, pageNumber := 1, order := 0, parentSectionId := none }

/-- A section forgetting its parent pointer (the only field
`_build_hierarchy` writes). -/
def stripParent (s : Section) : Section := { s with parentSectionId := none }

/-! ## Helper lemmas: decimal formatting is injective -/

theorem digitChar_toNat {d : Nat} (h : d < 10) : (Nat.digitChar d).toNat = 48 + d := by
  interval_cases d <;> rfl

theorem decValue_append (xs : List Char) (c : Char) :
    decValue (xs ++ [c]) = decValue xs * 10 + (c.toNat - 48) := by
  simp [decValue, List.foldl_append]

theorem decCharsAux_value : ∀ f n, n < 10 ^ f → decValue (decCharsAux f n) = n := by
  intro f
  induction f with
  | zero =>
    intro n h
    have hn : n = 0 := by omega
    subst hn
    rfl
  | succ f ih =>
    intro n h
    by_cases h10 : n < 10
    · simp [decCharsAux, h10, decValue, digitChar_toNat h10]
    · have hdiv : n / 10 < 10 ^ f := by
        rw [Nat.div_lt_iff_lt_mul (by norm_num)]
        calc n < 10 ^ (f + 1) := h
        _ = 10 ^ f * 10 := by ring
      simp only [decCharsAux, h10, if_false]
      rw [decValue_append, ih _ hdiv, digitChar_toNat (Nat.mod_lt n (by norm_num))]
      omega

theorem decChars_value (n : Nat) : decValue (decChars n) = n := by
  have h : n < 10 ^ (n + 1) := by
    calc n < 2 ^ n := Nat.lt_two_pow n
    _ ≤ 10 ^ n := Nat.pow_le_pow_left (by norm_num) n
    _ ≤ 10 ^ (n + 1) := Nat.pow_le_pow_right (by norm_num) (Nat.le_succ n)
  exact decCharsAux_value (n + 1) n h

theorem natDecimal_inj {a b : Nat} (h : natDecimal a = natDecimal b) : a = b := by
  have hd : decChars a = decChars b := congrArg String.data h
  have := congrArg decValue hd
  rwa [decChars_value, decChars_value] at this

theorem append_natDecimal_inj {s : String} {a b : Nat}
    (h : s ++ natDecimal a = s ++ natDecimal b) : a = b := by
  have hd := congrArg String.data h
  simp only [String.data_append] at hd
  exact natDecimal_inj (congrArg String.mk (List.append_cancel_left hd))

/-! ## Helper lemmas: stripping -/

theorem dropWhile_head_false {α : Type _} {p : α → Bool} :
    ∀ (l : List α) {c : α} {cs : List α}, l.dropWhile p = c :: cs → p c = false := by
  intro l
  induction l with
  | nil => intro c cs h; simp [List.dropWhile] at h
  | cons a as ih =>
    intro c cs h
    by_cases ha : p a
    · rw [List.dropWhile_cons, if_pos ha] at h
      exact ih h
    · rw [List.dropWhile_cons, if_neg ha] at h
      cases h
      simpa using ha

theorem dropWhile_of_head_false {α : Type _} {p : α → Bool} {c : α} {cs : List α}
    (h : p c = false) : (c :: cs).dropWhile p = c :: cs := by
  rw [List.dropWhile_cons, if_neg (by simp [h])]

/-- `trimChars` is right-trim composed with left-trim. -/
theorem trimChars_eq (l : List Char) :
    trimChars l = (l.dropWhile Char.isWhitespace).rdropWhile Char.isWhitespace := rfl

/-- Python strip is idempotent. -/
theorem trimChars_idem (l : List Char) : trimChars (trimChars l) = trimChars l := by
  rw [trimChars_eq, trimChars_eq]
  have hmid :
      ((l.dropWhile Char.isWhitespace).rdropWhile Char.isWhitespace).dropWhile
          Char.isWhitespace
        = (l.dropWhile Char.isWhitespace).rdropWhile Char.isWhitespace := by
    obtain ⟨t, ht⟩ :=
      List.rdropWhile_prefix Char.isWhitespace (l.dropWhile Char.isWhitespace)
    match hR : (l.dropWhile Char.isWhitespace).rdropWhile Char.isWhitespace with
    | [] => simp
    | c :: cs =>
      apply dropWhile_of_head_false
      rw [hR] at ht
      exact dropWhile_head_false l (by rw [← ht]; rfl)
  rw [hmid, List.rdropWhile_idempotent]

/-- A list strips to `[]` exactly when all its characters are whitespace. -/
theorem trimChars_eq_nil_iff (l : List Char) :
    trimChars l = [] ↔ ∀ c ∈ l, c.isWhitespace := by
  rw [trimChars_eq, List.rdropWhile_eq_nil_iff]
  constructor
  · intro h c hc
    by_cases hcu : c ∈ l.takeWhile Char.isWhitespace
    · exact List.mem_takeWhile_imp hcu
    · have hmem : c ∈ l.takeWhile Char.isWhitespace ++ l.dropWhile Char.isWhitespace := by
        rw [List.takeWhile_append_dropWhile]
        exact hc
      rcases List.mem_append.mp hmem with h' | h'
      · exact absurd h' hcu
      · exact h c h'
  · intro h c hc
    exact h c ((List.dropWhile_sublist _).mem hc)

/-- A list containing a non-whitespace character does not strip to `[]`. -/
theorem trimChars_ne_nil {l : List Char} {c : Char} (hc : c ∈ l)
    (hw : c.isWhitespace = false) : trimChars l ≠ [] := by
  intro h
  have := (trimChars_eq_nil_iff l).mp h c hc
  rw [hw] at this
  exact Bool.noConfusion this

theorem string_mk_data : ∀ s : String, String.mk s.data = s
  | ⟨_⟩ => rfl

/-! ## Helper lemmas: sentences produced by the splitter -/

/-- Every sentence produced by the recombination loop is some stripped,
non-empty string. -/
theorem recombinePairs_mem :
    ∀ ps : List (List Char), ∀ x ∈ recombinePairs ps, ∃ y, x = trimChars y ∧ x ≠ []
  | p :: s :: rest, x, hx => by
    rw [recombinePairs] at hx
    by_cases hps : trimChars (p ++ s) ≠ []
    · rw [if_pos hps] at hx
      rcases List.mem_cons.mp hx with h | h
      · exact ⟨p ++ s, h, h ▸ hps⟩
      · exact recombinePairs_mem rest x h
    · rw [if_neg hps] at hx
      exact recombinePairs_mem rest x hx
  | [p], x, hx => by
    rw [recombinePairs] at hx
    by_cases hp : trimChars p ≠ []
    · rw [if_pos hp] at hx
      rcases List.mem_singleton.mp hx with rfl
      exact ⟨p, rfl, hp⟩
    · rw [if_neg hp] at hx
      exact absurd hx (List.not_mem_nil x)
  | [], x, hx => absurd hx (List.not_mem_nil x)

/-- A stripped non-empty string contains a non-whitespace character. -/
theorem trimmed_has_ink {x : List Char} (hx : ∃ y, x = trimChars y ∧ x ≠ []) :
    ∃ c ∈ x, c.isWhitespace = false := by
  obtain ⟨y, rfl, hne⟩ := hx
  by_contra hall
  push_neg at hall
  apply hne
  rw [← trimChars_idem y]
  rw [trimChars_eq_nil_iff]
  intro c hc
  have := hall c hc
  revert this
  cases c.isWhitespace <;> simp

/-- If the recombination loop keeps nothing, every character of every piece
is whitespace. -/
theorem recombinePairs_nil :
    ∀ ps : List (List Char), recombinePairs ps = [] →
      ∀ p ∈ ps, ∀ c ∈ p, c.isWhitespace
  | p :: s :: rest, h, q, hq, c, hc => by
    rw [recombinePairs] at h
    by_cases hps : trimChars (p ++ s) ≠ []
    · rw [if_pos hps] at h
      exact absurd h (List.cons_ne_nil _ _)
    · rw [if_neg hps] at h
      push_neg at hps
      have hall := (trimChars_eq_nil_iff (p ++ s)).mp hps
      rcases List.mem_cons.mp hq with rfl | hq'
      · exact hall c (List.mem_append_left _ hc)
      · rcases List.mem_cons.mp hq' with rfl | hq''
        · exact hall c (List.mem_append_right _ hc)
        · exact recombinePairs_nil rest h q hq'' c hc
  | [p], h, q, hq, c, hc => by
    rw [recombinePairs] at h
    by_cases hp : trimChars p ≠ []
    · rw [if_pos hp] at h
      exact absurd h (List.cons_ne_nil _ _)
    · push_neg at hp
      rcases List.mem_singleton.mp hq with rfl
      exact (trimChars_eq_nil_iff q).mp hp c hc
  | [], _, q, hq, _, _ => absurd hq (List.not_mem_nil q)

/-- The characters the scanner has consumed are exactly distributed over
the emitted pieces: joining the pieces restores the input (together with
the accumulators). -/
theorem splitPieces_join :
    ∀ (cs : List Char) (mode : SplitMode) (accP : List Char),
      (splitPieces cs mode accP).flatten =
        accP.reverse ++
          (match mode with
           | SplitMode.norm => []
           | SplitMode.term accR => accR.reverse
           | SplitMode.ws accR accW => accR.reverse ++ accW.reverse) ++ cs := by
  intro cs
  induction cs with
  | nil =>
    intro mode accP
    match mode with
    | SplitMode.norm => simp [splitPieces]
    | SplitMode.term accR => simp [splitPieces]
    | SplitMode.ws accR accW => simp [splitPieces]
  | cons c cs ih =>
    intro mode accP
    match mode with
    | SplitMode.norm =>
      simp only [splitPieces]
      by_cases ht : isTermin c
      · rw [if_pos ht, ih]; simp
      · rw [if_neg ht, ih]; simp
    | SplitMode.term accR =>
      simp only [splitPieces]
      by_cases ht : isTermin c
      · rw [if_pos ht, ih]; simp
      · rw [if_neg ht]
        by_cases hw : c.isWhitespace
        · rw [if_pos hw, ih]; simp
        · rw [if_neg hw, ih]; simp
    | SplitMode.ws accR accW =>
      simp only [splitPieces]
      by_cases hw : c.isWhitespace
      · rw [if_pos hw, ih]; simp
      · rw [if_neg hw]
        by_cases ht : isTermin c
        · rw [if_pos ht, List.flatten_cons, List.flatten_cons, ih]; simp
        · rw [if_neg ht, List.flatten_cons, List.flatten_cons, ih]; simp

/-- Either every sentence contains a non-whitespace character, or the
splitter fell back to the whole text and that text is pure whitespace. -/
theorem sentences_dichotomy (t : List Char) :
    (∀ x ∈ _split_into_sentences t, ∃ c ∈ x, c.isWhitespace = false) ∨
      (_split_into_sentences t = [t] ∧ ∀ c ∈ t, c.isWhitespace) := by
  by_cases hres : recombinePairs (splitPieces t SplitMode.norm []) = []
  · right
    constructor
    · simp [_split_into_sentences, hres]
    · intro c hc
      have hjoin := splitPieces_join t SplitMode.norm []
      simp only [List.reverse_nil, List.nil_append] at hjoin
      have : c ∈ (splitPieces t SplitMode.norm []).flatten := by rw [hjoin]; exact hc
      obtain ⟨p, hp, hcp⟩ := List.mem_flatten.mp this
      exact recombinePairs_nil _ hres p hp c hcp
  · left
    intro x hx
    have : x ∈ recombinePairs (splitPieces t SplitMode.norm []) := by
      simpa [_split_into_sentences, hres] using hx
    exact trimmed_has_ink (recombinePairs_mem _ x this)

/-! ## Helper lemmas: chunk contents -/

/-- Invariant of the sentence loop: whenever every pending sentence and the
current buffer contain ink, every emitted chunk is non-empty and
stripped. -/
theorem chunkAux_content (ck : Chunker) (s : Section) :
    ∀ (sents : List (List Char)) (cur : List Char) (idx : Nat),
      (∀ x ∈ sents, ∃ c ∈ x, c.isWhitespace = false) →
      (cur = [] ∨ ∃ c ∈ cur, c.isWhitespace = false) →
      ∀ ch ∈ chunkAux ck s sents cur idx,
        ch.content.data ≠ [] ∧ trimChars ch.content.data = ch.content.data := by
  intro sents
  induction sents with
  | nil =>
    intro cur idx _ _ ch hch
    rw [chunkAux] at hch
    by_cases hcur : trimChars cur ≠ []
    · rw [if_pos hcur] at hch
      rcases List.mem_singleton.mp hch with rfl
      exact ⟨hcur, trimChars_idem cur⟩
    · rw [if_neg hcur] at hch
      exact absurd hch (List.not_mem_nil ch)
  | cons sent rest ih =>
    intro cur idx hP hQ ch hch
    rw [chunkAux] at hch
    obtain ⟨cw, hcw, hcwink⟩ := hP sent (List.mem_cons_self _ _)
    have hP' := fun x hx => hP x (List.mem_cons_of_mem _ hx)
    by_cases hsplit :
        ck.chunk_size * chars_per_token < cur.length + sent.length ∧ cur ≠ []
    · rw [if_pos hsplit] at hch
      rcases List.mem_cons.mp hch with rfl | hch'
      · rcases hQ with rfl | ⟨c, hc, hcink⟩
        · exact absurd rfl hsplit.2
        · exact ⟨trimChars_ne_nil hc hcink, trimChars_idem cur⟩
      · refine ih _ _ hP' (Or.inr ⟨cw, ?_, hcwink⟩) ch hch'
        exact List.mem_append_right _ (List.mem_cons_of_mem _ hcw)
    · rw [if_neg hsplit] at hch
      refine ih _ _ hP' (Or.inr ⟨cw, ?_, hcwink⟩) ch hch
      exact List.mem_append_right _ (List.mem_cons_of_mem _ hcw)

/-! ## Claim C8 -/

/-- C8: for every section whose content is shorter than 100 characters,
`chunk_section` returns exactly one chunk, with index 0 and content equal
to the section content, whatever the configured chunk size and overlap;
hence re-chunking such content (under any other configuration, through any
section carrying the same content) again yields that single chunk. -/
theorem claim_C8 (ck ck2 : Chunker) (s s2 : Section)
    (h : s.content.length < 100) (h2 : s2.content = s.content) :
    (chunk_section ck s).map (fun c => (c.chunkIndex, c.content)) = [(0, s.content)] ∧
    (chunk_section ck2 s2).map (fun c => (c.chunkIndex, c.content)) = [(0, s.content)] := by
  constructor
  · rw [chunk_section, if_pos (Or.inr h)]
    simp [_create_chunk, string_mk_data]
  · rw [chunk_section, if_pos (Or.inr (by rw [h2]; exact h))]
    simp [_create_chunk, string_mk_data, h2]

/-- Witness for C8 at a section of exactly 90 characters, re-chunked under
a different configuration. -/
theorem claim_C8_witness :
    (chunk_section defaultChunker secC8).map (fun c => (c.chunkIndex, c.content)) =
        [(0, secC8.content)] ∧
      (chunk_section { chunk_size := 8, overlap := 3 } secC8).map
          (fun c => (c.chunkIndex, c.content)) = [(0, secC8.content)] :=
  claim_C8 defaultChunker { chunk_size := 8, overlap := 3 } secC8 secC8 (by decide) rfl

/-! ## Claim C2 -/

/-- C2 counterexample: on a section with empty content, `chunk_section`
returns a chunk whose content is empty, so not every chunk has non-empty
content. -/
theorem claim_C2_counterexample :
    ¬ (∀ c ∈ chunk_section defaultChunker secC2, c.content.data ≠ []) := by
  decide

/-- C2 amended: every chunk produced from a section with at least 100
characters of content is non-empty and stripped; for a section with empty
or shorter content the single returned chunk carries the section content
verbatim (possibly empty or untrimmed). -/
theorem claim_C2_amended (ck : Chunker) (s : Section) :
    (100 ≤ s.content.length →
      ∀ c ∈ chunk_section ck s,
        c.content.data ≠ [] ∧ trimChars c.content.data = c.content.data) ∧
    (s.content.length < 100 →
      (chunk_section ck s).map (fun c => c.content) = [s.content]) := by
  constructor
  · intro h100 c hc
    rw [chunk_section] at hc
    have hlen : s.content.length = s.content.data.length := rfl
    have hguard : ¬(s.content.data = [] ∨ s.content.length < 100) := by
      push_neg
      refine ⟨fun hnil => ?_, by omega⟩
      rw [hlen, hnil] at h100
      simp at h100
    rw [if_neg hguard] at hc
    rcases sentences_dichotomy s.content.data with hP | ⟨hfb, hall⟩
    · exact chunkAux_content ck s _ [] 0 hP (Or.inl rfl) c hc
    · rw [hfb, chunkAux] at hc
      have hcond :
          ¬(ck.chunk_size * chars_per_token <
              ([] : List Char).length + s.content.data.length ∧ ([] : List Char) ≠ []) := by
        simp
      rw [if_neg hcond, chunkAux] at hc
      have hnil : ¬ trimChars (([] : List Char) ++ ' ' :: s.content.data) ≠ [] := by
        push_neg
        rw [trimChars_eq_nil_iff]
        intro ch hch
        rcases List.mem_cons.mp (by simpa using hch) with rfl | hm
        · decide
        · exact hall ch hm
      rw [if_neg hnil] at hc
      exact absurd hc (List.not_mem_nil c)
  · intro h
    rw [chunk_section, if_pos (Or.inr h)]
    simp [_create_chunk, string_mk_data]

/-- Witness for C2 as amended: a 100-character single-sentence section
yields one non-empty stripped chunk, and a short section is returned
verbatim. -/
theorem claim_C2_amended_witness :
    ((_create_chunk secC2w 0 (List.replicate 100 'A') secC2w.pageNumber).content.data ≠ [] ∧
      trimChars (_create_chunk secC2w 0 (List.replicate 100 'A')
          secC2w.pageNumber).content.data =
        (_create_chunk secC2w 0 (List.replicate 100 'A') secC2w.pageNumber).content.data) ∧
    (chunk_section defaultChunker secC8).map (fun c => c.content) = [secC8.content] :=
  ⟨(claim_C2_amended defaultChunker secC2w).1 (by decide) _ (by decide),
    (claim_C2_amended defaultChunker secC8).2 (by decide)⟩

/-! ## Transport lemmas through the pipeline stages -/

/-- The TOC filter is `List.filter` with the specification's dual
condition negated. -/
theorem filter_toc_eq (t : TableOfContents) :
    ∀ l : List Section,
      _filter_toc_sections t l = l.filter (fun s => !decide (tocDiscards t s)) := by
  intro l
  induction l with
  | nil => rfl
  | cons s rest ih =>
    rw [_filter_toc_sections, List.filter_cons]
    by_cases h1 : t.startPage ≤ (s.pageNumber : Int) ∧ (s.pageNumber : Int) ≤ t.endPage
    · rw [if_pos h1]
      by_cases h2 : s.content.length < 100
      · have hd : decide (tocDiscards t s) = true := decide_eq_true ⟨h1.1, h1.2, h2⟩
        rw [if_pos h2, ih]
        simp [hd]
      · have hd : decide (tocDiscards t s) = false :=
          decide_eq_false fun hdis => h2 hdis.2.2
        rw [if_neg h2, ih]
        simp [hd]
    · have hd : decide (tocDiscards t s) = false :=
        decide_eq_false fun hdis => h1 ⟨hdis.1, hdis.2.1⟩
      rw [if_neg h1, ih]
      simp [hd]

/-- `bhStep` only rewrites the parent pointer. -/
theorem bhStep_strip (stack : List (Nat × Section)) (s : Section) :
    stripParent (bhStep stack s) = stripParent s := by
  unfold bhStep
  split
  · split <;> rfl
  · rfl

/-- The fields `bhStep` never writes. -/
theorem bhStep_fields (stack : List (Nat × Section)) (s : Section) :
    (bhStep stack s).sectionId = s.sectionId ∧ (bhStep stack s).level = s.level ∧
      (bhStep stack s).order = s.order := by
  unfold bhStep
  split
  · split <;> exact ⟨rfl, rfl, rfl⟩
  · exact ⟨rfl, rfl, rfl⟩

/-- The parent pointer written by `bhStep`: unchanged, or the section id of
the record one level up. -/
theorem bhStep_parent (stack : List (Nat × Section)) (s : Section) :
    (bhStep stack s).parentSectionId = s.parentSectionId ∨
      (1 < s.level ∧ ∃ p, lookupLevel (s.level - 1) stack = some p ∧
        (bhStep stack s).parentSectionId = some p.sectionId) := by
  unfold bhStep
  by_cases h : 1 < s.level
  · rw [if_pos h]
    match hp : lookupLevel (s.level - 1) stack with
    | some p => exact Or.inr ⟨h, p, rfl, rfl⟩
    | none => exact Or.inl rfl
  · rw [if_neg h]
    exact Or.inl rfl

/-- `_build_hierarchy` only rewrites the parent pointer of each section. -/
theorem bh_strip :
    ∀ (l : List Section) (stack : List (Nat × Section)),
      (_build_hierarchy stack l).map stripParent = l.map stripParent := by
  intro l
  induction l with
  | nil => intro stack; rfl
  | cons s rest ih =>
    intro stack
    rw [_build_hierarchy]
    simp only [List.map_cons, ih]
    rw [bhStep_strip]

/-- Any field other than the parent pointer is preserved by
`_build_hierarchy`. -/
theorem bh_map_field {α : Type _} (f : Section → α)
    (hf : ∀ s, f (stripParent s) = f s) (l : List Section)
    (stack : List (Nat × Section)) :
    (_build_hierarchy stack l).map f = l.map f := by
  have hcomp : (f ∘ stripParent) = f := funext hf
  have h1 : (_build_hierarchy stack l).map (f ∘ stripParent) = l.map (f ∘ stripParent) := by
    rw [← List.map_map, ← List.map_map, bh_strip]
  rwa [hcomp] at h1

/-- Any field other than `order` is preserved by `renumber`. -/
theorem renumber_map_field {α : Type _} (f : Section → α)
    (hf : ∀ s i, f { s with order := i } = f s) :
    ∀ (l : List Section) (i : Nat), (renumber i l).map f = l.map f := by
  intro l
  induction l with
  | nil => intro i; rfl
  | cons s rest ih =>
    intro i
    rw [renumber]
    simp only [List.map_cons, hf, ih]

/-- `renumber i` writes the consecutive orders `i, i+1, ...`. -/
theorem renumber_orders :
    ∀ (l : List Section) (i : Nat),
      (renumber i l).map (fun s => s.order) = List.range' i l.length := by
  intro l
  induction l with
  | nil => intro i; rfl
  | cons s rest ih =>
    intro i
    rw [renumber, List.length_cons, List.range'_succ]
    simp only [List.map_cons, ih]

/-- `renumber` preserves length. -/
theorem renumber_length (l : List Section) (i : Nat) :
    (renumber i l).length = l.length := by
  have := congrArg List.length (renumber_orders l i)
  simpa using this

/-- `_build_hierarchy` preserves length. -/
theorem bh_length (l : List Section) (stack : List (Nat × Section)) :
    (_build_hierarchy stack l).length = l.length := by
  have := congrArg List.length (bh_strip l stack)
  simpa using this

/-! ## Claim C5 -/

/-- C5: with a TOC boundary supplied, the TOC filter removes a section
exactly when its estimated page lies in the TOC page range and its content
is shorter than 100 characters: the filtered list is the `List.filter` of
the retained sections, a sublist of the input (hence in the original
relative order), and membership is characterised by the dual condition. -/
theorem claim_C5 (t : TableOfContents) (l : List Section) :
    _filter_toc_sections t l = l.filter (fun s => !decide (tocDiscards t s)) ∧
    (_filter_toc_sections t l).Sublist l ∧
    ∀ s ∈ l, (s ∈ _filter_toc_sections t l ↔ ¬ tocDiscards t s) := by
  refine ⟨filter_toc_eq t l, ?_, ?_⟩
  · rw [filter_toc_eq t l]
    exact List.filter_sublist l
  · intro s hs
    rw [filter_toc_eq t l, List.mem_filter]
    constructor
    · intro ⟨_, hkeep⟩
      simpa using hkeep
    · intro hkeep
      exact ⟨hs, by simpa using hkeep⟩

set_option maxRecDepth 8192 in
/-- Witness for C5 on a concrete document: the short page-1 section of
`docC10` is discarded by the TOC filter for a TOC covering page 1. -/
theorem claim_C5_witness :
    (secC10short ∈ _filter_toc_sections tocC10 (raw_sections docC10) ↔
      ¬ tocDiscards tocC10 secC10short) ∧
    secC10short ∉ _filter_toc_sections tocC10 (raw_sections docC10) := by
  constructor
  · exact (claim_C5 tocC10 (raw_sections docC10)).2.2 secC10short (by decide)
  · decide

/-! ## Step lemmas for the segmentation loop -/

theorem segAux_nil_some (docId : String) (i page cnt : Nat) (h : List Char)
    (ty : SectionType) (buf : List (List Char)) :
    segAux docId [] i page (some (h, ty)) buf cnt =
      if buf ≠ [] then
        [_create_section docId cnt h buf ty page (extract_level h)]
      else [] := rfl

theorem segAux_nil_none (docId : String) (i page cnt : Nat) (buf : List (List Char)) :
    segAux docId [] i page none buf cnt = [] := rfl

theorem segAux_blank (docId : String) {l : List Char} (ls : List (List Char))
    (i page cnt : Nat) (op : Option (List Char × SectionType))
    (buf : List (List Char)) (ht : trimChars l = []) :
    segAux docId (l :: ls) i page op buf cnt =
      segAux docId ls (i + 1) (i / lines_per_page + 1) op buf cnt := by
  simp only [segAux, ht, if_pos]

theorem segAux_header_none (docId : String) {l : List Char} (ls : List (List Char))
    (i page cnt : Nat) (buf : List (List Char)) {ty : SectionType}
    (ht : trimChars l ≠ []) (hh : isSectionHeaderLine (trimChars l) = some ty) :
    segAux docId (l :: ls) i page none buf cnt =
      segAux docId ls (i + 1) (i / lines_per_page + 1)
        (some (trimChars l, ty)) [] cnt := by
  simp only [segAux, if_neg ht, hh]

theorem segAux_header_some_emit (docId : String) {l : List Char}
    (ls : List (List Char)) (i page cnt : Nat) (h : List Char) (hty : SectionType)
    (buf : List (List Char)) {ty : SectionType}
    (ht : trimChars l ≠ []) (hh : isSectionHeaderLine (trimChars l) = some ty)
    (hbuf : buf ≠ []) :
    segAux docId (l :: ls) i page (some (h, hty)) buf cnt =
      _create_section docId cnt h buf hty (i / lines_per_page + 1)
          (extract_level h) ::
        segAux docId ls (i + 1) (i / lines_per_page + 1)
          (some (trimChars l, ty)) [] (cnt + 1) := by
  simp only [segAux, if_neg ht, hh, if_pos hbuf]

theorem segAux_header_some_skip (docId : String) {l : List Char}
    (ls : List (List Char)) (i page cnt : Nat) (h : List Char) (hty : SectionType)
    {ty : SectionType}
    (ht : trimChars l ≠ []) (hh : isSectionHeaderLine (trimChars l) = some ty) :
    segAux docId (l :: ls) i page (some (h, hty)) [] cnt =
      segAux docId ls (i + 1) (i / lines_per_page + 1)
        (some (trimChars l, ty)) [] cnt := by
  simp only [segAux, if_neg ht, hh, ne_eq, not_true_eq_false, if_false]

theorem segAux_content_some (docId : String) {l : List Char}
    (ls : List (List Char)) (i page cnt : Nat) (hp : List Char × SectionType)
    (buf : List (List Char))
    (ht : trimChars l ≠ []) (hh : isSectionHeaderLine (trimChars l) = none) :
    segAux docId (l :: ls) i page (some hp) buf cnt =
      segAux docId ls (i + 1) (i / lines_per_page + 1) (some hp) (buf ++ [l]) cnt := by
  simp only [segAux, if_neg ht, hh]

theorem segAux_content_none (docId : String) {l : List Char}
    (ls : List (List Char)) (i page cnt : Nat) (buf : List (List Char))
    (ht : trimChars l ≠ []) (hh : isSectionHeaderLine (trimChars l) = none) :
    segAux docId (l :: ls) i page none buf cnt =
      segAux docId ls (i + 1) (i / lines_per_page + 1) none buf cnt := by
  simp only [segAux, if_neg ht, hh]

/-! ## The loop emits the contents described by the specification -/

set_option maxHeartbeats 2000000 in
theorem specSections_nil : specSections [] = [] := by rw [specSections]

theorem specSections_skip {l : List Char} (ls : List (List Char))
    (h : isHeadLine l = false) : specSections (l :: ls) = specSections ls := by
  rw [specSections]
  simp [h]

theorem specSections_hdr {l : List Char} (ls : List (List Char))
    (h : isHeadLine l = true) :
    specSections (l :: ls) =
      (if ((ls.takeWhile (fun x => !isHeadLine x)).filter
            (fun x => !(trimChars x).isEmpty)).isEmpty then []
       else
         [trimChars (joinLines ((ls.takeWhile (fun x => !isHeadLine x)).filter
            (fun x => !(trimChars x).isEmpty)))]) ++
        specSections (ls.dropWhile (fun x => !isHeadLine x)) := by
  rw [specSections]
  simp [h]

/-- Blank lines are never headings. -/
theorem isHeadLine_of_blank {l : List Char} (ht : trimChars l = []) :
    isHeadLine l = false := by
  rw [isHeadLine, ht]
  decide

/-- The segmentation loop emits exactly the contents of `specSections`,
relative to the buffered lines of the currently open section. -/
theorem segAux_contents (docId : String) :
    ∀ (ls : List (List Char)) (i page counter : Nat)
      (openHeader : Option (List Char × SectionType)) (buf : List (List Char)),
      (segAux docId ls i page openHeader buf counter).map (fun s => s.content.data) =
        specWith buf openHeader ls := by
  intro ls
  induction ls with
  | nil =>
    intro i page counter openHeader buf
    cases openHeader with
    | none => simp [segAux_nil_none, specWith, specSections_nil]
    | some hp =>
      obtain ⟨h, ty⟩ := hp
      rw [segAux_nil_some]
      cases buf with
      | nil => simp [specWith, specSections_nil]
      | cons b bs => simp [specWith, specSections_nil, _create_section]
  | cons l ls ih =>
    intro i page counter openHeader buf
    by_cases ht : trimChars l = []
    · have hhl : isHeadLine l = false := isHeadLine_of_blank ht
      have hkeep : (!(trimChars l).isEmpty) = false := by rw [ht]; rfl
      rw [segAux_blank docId ls i page counter openHeader buf ht, ih]
      cases openHeader with
      | none => simp [specWith, specSections_skip ls hhl]
      | some hp =>
        simp only [specWith, List.takeWhile_cons, hhl, Bool.not_false, if_true,
          List.filter_cons, hkeep, List.dropWhile_cons]
        simp
    · match hh : isSectionHeaderLine (trimChars l) with
      | some ty =>
        have hhl : isHeadLine l = true := by rw [isHeadLine, hh]; rfl
        have hspec : specSections (l :: ls) = specWith [] (some (trimChars l, ty)) ls := by
          rw [specSections_hdr ls hhl, specWith]
          simp
        cases openHeader with
        | none =>
          rw [segAux_header_none docId ls i page counter buf ht hh, ih,
            show specWith buf none (l :: ls) = specSections (l :: ls) from rfl, hspec]
        | some hp =>
          obtain ⟨h, hty⟩ := hp
          cases buf with
          | nil =>
            rw [segAux_header_some_skip docId ls i page counter h hty ht hh, ih,
              ← hspec]
            simp only [specWith, List.takeWhile_cons, hhl, Bool.not_true,
              List.filter_nil, List.dropWhile_cons]
            simp
          | cons b bs =>
            rw [segAux_header_some_emit docId ls i page counter h hty (b :: bs) ht hh
              (List.cons_ne_nil b bs), List.map_cons, ih, ← hspec]
            simp only [specWith, List.takeWhile_cons, hhl, Bool.not_true,
              List.filter_nil, List.dropWhile_cons, _create_section]
            simp
      | none =>
        have hhl : isHeadLine l = false := by rw [isHeadLine, hh]; rfl
        have hkeep : (!(trimChars l).isEmpty) = true := by
          match htc : trimChars l with
          | [] => exact absurd htc ht
          | c :: cs => rfl
        cases openHeader with
        | none =>
          rw [segAux_content_none docId ls i page counter buf ht hh, ih]
          simp [specWith, specSections_skip ls hhl]
        | some hp =>
          rw [segAux_content_some docId ls i page counter hp buf ht hh, ih]
          simp only [specWith, List.takeWhile_cons, hhl, Bool.not_false, if_true,
            List.filter_cons, hkeep, List.dropWhile_cons]
          simp [List.append_assoc]
/-- A character of a line is a character of the newline-join. -/
theorem joinLines_mem :
    ∀ (bs : List (List Char)) (y : List Char), y ∈ bs →
      ∀ c ∈ y, c ∈ joinLines bs
  | [], y, hy => absurd hy (List.not_mem_nil y)
  | [z], y, hy => by
    rcases List.mem_singleton.mp hy with rfl
    intro c hc
    simpa [joinLines] using hc
  | z :: w :: ws, y, hy => by
    intro c hc
    rw [joinLines]
    rcases List.mem_cons.mp hy with rfl | hy'
    · exact List.mem_append_left _ hc
    · exact List.mem_append_right _
        (List.mem_cons_of_mem _ (joinLines_mem (w :: ws) y hy' c hc))

/-- Every content emitted by the specification view is non-empty. -/
theorem specSections_ne_nil :
    ∀ ls : List (List Char), ∀ x ∈ specSections ls, x ≠ []
  | [] => by simp [specSections_nil]
  | l :: ls => by
    intro x hx
    by_cases hhl : isHeadLine l
    · rw [specSections_hdr ls hhl] at hx
      rcases List.mem_append.mp hx with h1 | h2
      · by_cases hk : ((ls.takeWhile (fun x => !isHeadLine x)).filter
            (fun x => !(trimChars x).isEmpty)).isEmpty
        · rw [if_pos hk] at h1
          exact absurd h1 (List.not_mem_nil x)
        · rw [if_neg hk] at h1
          rcases List.mem_singleton.mp h1 with rfl
          match hkept : (ls.takeWhile (fun x => !isHeadLine x)).filter
              (fun x => !(trimChars x).isEmpty) with
          | [] => rw [hkept] at hk; exact absurd rfl hk
          | y :: ys =>
            have hy : y ∈ (ls.takeWhile (fun x => !isHeadLine x)).filter
                (fun x => !(trimChars x).isEmpty) := by
              rw [hkept]; exact List.mem_cons_self y ys
            have htrimy : trimChars y ≠ [] := by
              have := (List.mem_filter.mp hy).2
              simpa using this
            have hink : ∃ c ∈ y, c.isWhitespace = false := by
              by_contra hall
              push_neg at hall
              apply htrimy
              rw [trimChars_eq_nil_iff]
              intro c hc
              have := hall c hc
              revert this
              cases c.isWhitespace <;> simp
            obtain ⟨c, hc, hcw⟩ := hink
            exact trimChars_ne_nil
              (joinLines_mem (y :: ys) y (List.mem_cons_self y ys) c hc) hcw
      · exact specSections_ne_nil (ls.dropWhile (fun x => !isHeadLine x)) x h2
    · rw [specSections_skip ls (by simpa using hhl)] at hx
      exact specSections_ne_nil ls x hx
  termination_by ls => ls.length
  decreasing_by
  · simp only [List.length_cons]
    exact Nat.lt_succ_of_le (List.dropWhile_sublist _).length_le
  · simp

/-! ## Claim C4 -/

set_option maxRecDepth 8192 in
/-- C4 counterexample: in a document whose section body contains a blank
line, the emitted content is not the trimmed join of all the lines strictly
between the heading and the end of input (the blank line is dropped, not
joined). -/
theorem claim_C4_counterexample :
    (extract_sections docC4 none).map (fun s => s.content) =
        ["prima riga\nseconda riga"] ∧
      String.mk (trimChars (joinLines
          ["prima riga".data, [], "seconda riga".data])) =
        "prima riga\n\nseconda riga" ∧
      ("prima riga\nseconda riga" : String) ≠ "prima riga\n\nseconda riga" := by
  refine ⟨by decide, by decide, by decide⟩

/-- C4 amended: while a section is open, a non-heading line is appended to
the buffer exactly when its stripped form is non-empty (blank and
whitespace-only lines are skipped), so each emitted section content is the
trimmed newline-join of the stripped-non-empty non-heading lines strictly
between its heading line and the next heading line or end of input — which
is what `specSections` computes from the split lines. -/
theorem claim_C4_amended (doc : Document) :
    (raw_sections doc).map (fun s => s.content.data) =
      specSections (splitOnChar '\n' doc.fullText.data) := by
  rw [raw_sections, segAux_contents]
  rfl

/-! ## Claim C1 -/

set_option maxRecDepth 8192 in
/-- C1 counterexample: in `docC1` the heading OGGETTO is immediately
followed by the heading QUESITO; the open OGGETTO section has no buffered
lines and is discarded, not emitted as an empty section — the output holds
only the QUESITO section and no section with empty content. -/
theorem claim_C1_counterexample :
    (extract_sections docC1 none).map (fun s => (s.title, s.content)) =
        [("QUESITO", "testo del corpo")] ∧
      ¬ ∃ s ∈ extract_sections docC1 none, s.content = "" := by
  refine ⟨by decide, by decide⟩

/-- C1 amended: a heading-classified line closes and emits the open section
only when at least one content line was buffered for it; an open section
with no buffered lines is discarded (also at end of input), so every
emitted Section has non-empty content. -/
theorem claim_C1_amended (doc : Document) (toc : Option TableOfContents) :
    ∀ s ∈ extract_sections doc toc, s.content.data ≠ [] := by
  intro s hs
  have hmem : s.content.data ∈
      (extract_sections doc toc).map (fun u => u.content.data) :=
    List.mem_map_of_mem _ hs
  cases toc with
  | none =>
    have heq : extract_sections doc none =
        _build_hierarchy [] (renumber 0 (raw_sections doc)) := rfl
    rw [heq, bh_map_field (fun u => u.content.data) (fun u => rfl),
      renumber_map_field (fun u => u.content.data) (fun u i => rfl),
      raw_sections, segAux_contents] at hmem
    exact specSections_ne_nil _ _ hmem
  | some t =>
    have heq : extract_sections doc (some t) =
        _build_hierarchy []
          (renumber 0 (_filter_toc_sections t (raw_sections doc))) := rfl
    rw [heq, bh_map_field (fun u => u.content.data) (fun u => rfl),
      renumber_map_field (fun u => u.content.data) (fun u i => rfl),
      filter_toc_eq] at hmem
    rcases List.mem_map.mp hmem with ⟨u, hu, hux⟩
    have humem : u ∈ raw_sections doc := (List.mem_filter.mp hu).1
    have : u.content.data ∈ (raw_sections doc).map (fun v => v.content.data) :=
      List.mem_map_of_mem _ humem
    rw [raw_sections, segAux_contents] at this
    rw [← hux]
    exact specSections_ne_nil _ _ this

/-- Witness for C1 as amended, at the single section of `docC1`. -/
theorem claim_C1_amended_witness : secC1q.content.data ≠ [] :=
  claim_C1_amended docC1 none secC1q (by decide)

/-! ## Section identifiers and parent pointers emitted by the loop -/

/-- The loop emits consecutive section identifiers
`docId_SEC_cnt, docId_SEC_(cnt+1), ...`. -/
theorem segAux_ids (docId : String) :
    ∀ (ls : List (List Char)) (i page cnt : Nat)
      (op : Option (List Char × SectionType)) (buf : List (List Char)),
      ∃ m, (segAux docId ls i page op buf cnt).map (fun s => s.sectionId) =
        (List.range' cnt m).map (fun k => docId ++ "_SEC_" ++ natDecimal k) := by
  intro ls
  induction ls with
  | nil =>
    intro i page cnt op buf
    match op with
    | none => exact ⟨0, rfl⟩
    | some (h, ty) =>
      rw [segAux_nil_some]
      by_cases hbuf : buf ≠ []
      · exact ⟨1, by rw [if_pos hbuf]; rfl⟩
      · exact ⟨0, by rw [if_neg hbuf]; rfl⟩
  | cons l ls ih =>
    intro i page cnt op buf
    by_cases ht : trimChars l = []
    · rw [segAux_blank docId ls i page cnt op buf ht]
      exact ih (i + 1) _ cnt op buf
    · match hh : isSectionHeaderLine (trimChars l) with
      | some ty =>
        match op with
        | none =>
          rw [segAux_header_none docId ls i page cnt buf ht hh]
          exact ih (i + 1) _ cnt _ []
        | some (h, hty) =>
          match buf with
          | [] =>
            rw [segAux_header_some_skip docId ls i page cnt h hty ht hh]
            exact ih (i + 1) _ cnt _ []
          | b :: bs =>
            rw [segAux_header_some_emit docId ls i page cnt h hty (b :: bs) ht hh
              (List.cons_ne_nil b bs)]
            obtain ⟨m, hm⟩ := ih (i + 1) (i / lines_per_page + 1)
              (cnt + 1) (some (trimChars l, ty)) []
            refine ⟨m + 1, ?_⟩
            rw [List.map_cons, hm, List.range'_succ, List.map_cons]
            rfl
      | none =>
        match op with
        | none =>
          rw [segAux_content_none docId ls i page cnt buf ht hh]
          exact ih (i + 1) _ cnt none buf
        | some hp =>
          rw [segAux_content_some docId ls i page cnt hp buf ht hh]
          exact ih (i + 1) _ cnt _ (buf ++ [l])

/-- Sections leave the loop with no parent pointer. -/
theorem segAux_parent_none (docId : String) :
    ∀ (ls : List (List Char)) (i page cnt : Nat)
      (op : Option (List Char × SectionType)) (buf : List (List Char)),
      ∀ s ∈ segAux docId ls i page op buf cnt, s.parentSectionId = none := by
  intro ls
  induction ls with
  | nil =>
    intro i page cnt op buf s hs
    match op with
    | none => exact absurd hs (List.not_mem_nil s)
    | some (h, ty) =>
      rw [segAux_nil_some] at hs
      by_cases hbuf : buf ≠ []
      · rw [if_pos hbuf] at hs
        rcases List.mem_singleton.mp hs with rfl
        rfl
      · rw [if_neg hbuf] at hs
        exact absurd hs (List.not_mem_nil s)
  | cons l ls ih =>
    intro i page cnt op buf s hs
    by_cases ht : trimChars l = []
    · rw [segAux_blank docId ls i page cnt op buf ht] at hs
      exact ih (i + 1) _ cnt op buf s hs
    · match hh : isSectionHeaderLine (trimChars l) with
      | some ty =>
        match op with
        | none =>
          rw [segAux_header_none docId ls i page cnt buf ht hh] at hs
          exact ih (i + 1) _ cnt _ [] s hs
        | some (h, hty) =>
          match buf with
          | [] =>
            rw [segAux_header_some_skip docId ls i page cnt h hty ht hh] at hs
            exact ih (i + 1) _ cnt _ [] s hs
          | b :: bs =>
            rw [segAux_header_some_emit docId ls i page cnt h hty (b :: bs) ht hh
              (List.cons_ne_nil b bs)] at hs
            rcases List.mem_cons.mp hs with rfl | hs'
            · rfl
            · exact ih (i + 1) _ (cnt + 1) _ [] s hs'
      | none =>
        match op with
        | none =>
          rw [segAux_content_none docId ls i page cnt buf ht hh] at hs
          exact ih (i + 1) _ cnt none buf s hs
        | some hp =>
          rw [segAux_content_some docId ls i page cnt hp buf ht hh] at hs
          exact ih (i + 1) _ cnt _ (buf ++ [l]) s hs

/-- The section-id builder is injective in the counter. -/
theorem secId_inj (docId : String) :
    Function.Injective (fun k => docId ++ "_SEC_" ++ natDecimal k) := by
  intro a b h
  exact append_natDecimal_inj h

/-- The identifiers of the raw sections are pairwise distinct. -/
theorem raw_sections_ids_nodup (doc : Document) :
    ((raw_sections doc).map (fun s => s.sectionId)).Nodup := by
  obtain ⟨m, hm⟩ := segAux_ids doc.documentId
    (splitOnChar '\n' doc.fullText.data) 0 1 0 none []
  rw [raw_sections, hm]
  exact (List.nodup_range' _ _).map (secId_inj doc.documentId)

/-- The identifiers of the extracted sections are pairwise distinct. -/
theorem extract_sections_ids_nodup (doc : Document) (toc : Option TableOfContents) :
    ((extract_sections doc toc).map (fun s => s.sectionId)).Nodup := by
  cases toc with
  | none =>
    have heq : extract_sections doc none =
        _build_hierarchy [] (renumber 0 (raw_sections doc)) := rfl
    rw [heq, bh_map_field (fun s => s.sectionId) (fun s => rfl),
      renumber_map_field (fun s => s.sectionId) (fun s i => rfl)]
    exact raw_sections_ids_nodup doc
  | some t =>
    have heq : extract_sections doc (some t) =
        _build_hierarchy []
          (renumber 0 (_filter_toc_sections t (raw_sections doc))) := rfl
    rw [heq, bh_map_field (fun s => s.sectionId) (fun s => rfl),
      renumber_map_field (fun s => s.sectionId) (fun s i => rfl), filter_toc_eq]
    exact (raw_sections_ids_nodup doc).sublist
      (List.Sublist.map (fun s : Section => s.sectionId)
        (List.filter_sublist (raw_sections doc)))

/-! ## The hierarchy pass -/

theorem lookupLevel_mem {lv : Nat} :
    ∀ {st : List (Nat × Section)} {p : Section},
      lookupLevel lv st = some p → (lv, p) ∈ st := by
  intro st
  induction st with
  | nil => intro p h; exact absurd h (Option.noConfusion)
  | cons q rest ih =>
    intro p h
    obtain ⟨k, u⟩ := q
    rw [lookupLevel] at h
    by_cases hk : k = lv
    · rw [if_pos hk] at h
      cases h
      subst hk
      exact List.mem_cons_self _ _
    · rw [if_neg hk] at h
      exact List.mem_cons_of_mem _ (ih h)

/-- Specification of the parent pointers written by `_build_hierarchy`: a
parent is found either in the incoming stack or in the output, has level
one less than the child, and strictly smaller order. -/
theorem bh_parent_spec :
    ∀ (l : List Section) (stack : List (Nat × Section)),
      (∀ q ∈ stack, (q : Nat × Section).2.level = q.1) →
      (∀ q ∈ stack, ∀ u ∈ l, (q : Nat × Section).2.order < u.order) →
      (∀ u ∈ l, u.parentSectionId = none) →
      l.Pairwise (fun a b => a.order < b.order) →
      ∀ s ∈ _build_hierarchy stack l, ∀ pid, s.parentSectionId = some pid →
        (∃ q ∈ stack, (q : Nat × Section).2.sectionId = pid ∧
            (q : Nat × Section).2.level = s.level - 1 ∧
            (q : Nat × Section).2.order < s.order) ∨
        (∃ p ∈ _build_hierarchy stack l, p.sectionId = pid ∧
            p.level = s.level - 1 ∧ p.order < s.order) := by
  intro l
  induction l with
  | nil =>
    intro stack _ _ _ _ s hs
    exact absurd hs (List.not_mem_nil s)
  | cons a rest ih =>
    intro stack hlv hord hnone hpw s hs pid hpid
    have hbh : _build_hierarchy stack (a :: rest) =
        bhStep stack a ::
          _build_hierarchy ((a.level, bhStep stack a) ::
            stack.filter (fun q => q.1 < a.level)) rest := rfl
    have hanone : a.parentSectionId = none := hnone a (List.mem_cons_self _ _)
    obtain ⟨hid2, hlv2, hord2⟩ := bhStep_fields stack a
    rw [hbh] at hs
    rcases List.mem_cons.mp hs with rfl | hs'
    · rcases bhStep_parent stack a with hsame | ⟨hgt, p, hlook, hset⟩
      · rw [hpid, hanone] at hsame
        exact absurd hsame.symm (Option.noConfusion)
      · rw [hpid] at hset
        have hppid : pid = p.sectionId := Option.some.inj hset
        have hq : (a.level - 1, p) ∈ (stack : List (Nat × Section)) :=
          lookupLevel_mem hlook
        refine Or.inl ⟨(a.level - 1, p), hq, hppid.symm, ?_, ?_⟩
        · rw [hlv (a.level - 1, p) hq, hlv2]
        · rw [hord2]
          exact hord (a.level - 1, p) hq a (List.mem_cons_self _ _)
    · have hrec := ih ((a.level, bhStep stack a) ::
          stack.filter (fun q => q.1 < a.level))
        (by
          intro q hq
          rcases List.mem_cons.mp hq with rfl | hq'
          · exact hlv2
          · exact hlv q (List.mem_of_mem_filter hq'))
        (by
          intro q hq u hu
          rcases List.mem_cons.mp hq with rfl | hq'
          · rw [hord2]
            exact (List.pairwise_cons.mp hpw).1 u hu
          · exact hord q (List.mem_of_mem_filter hq') u (List.mem_cons_of_mem _ hu))
        (fun u hu => hnone u (List.mem_cons_of_mem _ hu))
        (List.pairwise_cons.mp hpw).2
        s hs' pid hpid
      rcases hrec with ⟨q, hq, hqid, hqlv, hqord⟩ | ⟨p, hp, hpidq, hplv, hpord⟩
      · rcases List.mem_cons.mp hq with rfl | hq'
        · refine Or.inr ⟨bhStep stack a, ?_, hqid, hqlv, hqord⟩
          rw [hbh]
          exact List.mem_cons_self _ _
        · exact Or.inl ⟨q, List.mem_of_mem_filter hq', hqid, hqlv, hqord⟩
      · refine Or.inr ⟨p, ?_, hpidq, hplv, hpord⟩
        rw [hbh]
        exact List.mem_cons_of_mem _ hp

/-- Orders assigned by `renumber i` are at least `i`. -/
theorem renumber_mem_ge :
    ∀ (l : List Section) (i : Nat), ∀ s ∈ renumber i l, i ≤ s.order := by
  intro l
  induction l with
  | nil => intro i s hs; exact absurd hs (List.not_mem_nil s)
  | cons a rest ih =>
    intro i s hs
    rw [renumber] at hs
    rcases List.mem_cons.mp hs with rfl | hs'
    · exact Nat.le_refl i
    · exact Nat.le_of_succ_le (ih (i + 1) s hs')

/-- The orders assigned by `renumber` are strictly increasing along the
list. -/
theorem renumber_pairwise :
    ∀ (l : List Section) (i : Nat),
      (renumber i l).Pairwise (fun a b => a.order < b.order) := by
  intro l
  induction l with
  | nil => intro i; exact List.Pairwise.nil
  | cons a rest ih =>
    intro i
    rw [renumber]
    refine List.pairwise_cons.mpr ⟨?_, ih (i + 1)⟩
    intro s hs
    exact Nat.lt_of_succ_le (renumber_mem_ge rest (i + 1) s hs)

/-- `renumber` keeps parent pointers. -/
theorem renumber_parent_none :
    ∀ (l : List Section) (i : Nat), (∀ s ∈ l, s.parentSectionId = none) →
      ∀ s ∈ renumber i l, s.parentSectionId = none := by
  intro l
  induction l with
  | nil => intro i _ s hs; exact absurd hs (List.not_mem_nil s)
  | cons a rest ih =>
    intro i h s hs
    rw [renumber] at hs
    rcases List.mem_cons.mp hs with rfl | hs'
    · exact h a (List.mem_cons_self _ _)
    · exact ih (i + 1) (fun u hu => h u (List.mem_cons_of_mem _ hu)) s hs'

/-! ## Claim C6 -/

/-- C6: every section of the output with a non-null parent pointer refers
to exactly one section of the same output, and that parent has level one
less than the child and strictly smaller order. -/
theorem claim_C6 (doc : Document) (toc : Option TableOfContents) :
    ∀ s ∈ extract_sections doc toc, ∀ pid, s.parentSectionId = some pid →
      ∃ p, p ∈ extract_sections doc toc ∧ p.sectionId = pid ∧
        p.level = s.level - 1 ∧ p.order < s.order ∧
        ∀ q ∈ extract_sections doc toc, q.sectionId = pid → q = p := by
  intro s hs pid hpid
  obtain ⟨base, heq, hbnone⟩ :
      ∃ base, extract_sections doc toc =
          _build_hierarchy [] (renumber 0 base) ∧
        ∀ u ∈ base, u.parentSectionId = none := by
    cases toc with
    | none =>
      exact ⟨raw_sections doc, rfl,
        segAux_parent_none doc.documentId _ 0 1 0 none []⟩
    | some t =>
      refine ⟨_filter_toc_sections t (raw_sections doc), rfl, ?_⟩
      intro u hu
      rw [filter_toc_eq] at hu
      exact segAux_parent_none doc.documentId _ 0 1 0 none [] u
        (List.mem_filter.mp hu).1
  rw [heq] at hs
  have hspec := bh_parent_spec (renumber 0 base) []
    (fun q hq => absurd hq (List.not_mem_nil q))
    (fun q hq => absurd hq (List.not_mem_nil q))
    (renumber_parent_none base 0 hbnone)
    (renumber_pairwise base 0)
    s hs pid hpid
  rcases hspec with ⟨q, hq, _⟩ | ⟨p, hp, hpid2, hplv, hpord⟩
  · exact absurd hq (List.not_mem_nil q)
  · refine ⟨p, heq ▸ hp, hpid2, hplv, hpord, ?_⟩
    intro u hu huid
    have hnd := extract_sections_ids_nodup doc toc
    rw [heq] at hu
    exact List.inj_on_of_nodup_map (heq ▸ hnd) hu hp (by rw [huid, hpid2])

set_option maxRecDepth 8192 in
/-- Witness for C6: in `docC6` the level-2 section BETA points at
D6_SEC_0, which is present exactly once, at level 1 and order 0. -/
theorem claim_C6_witness :
    ∃ p, p ∈ extract_sections docC6 none ∧ p.sectionId = "D6_SEC_0" ∧
      p.level = secC6beta.level - 1 ∧ p.order < secC6beta.order ∧
      ∀ q ∈ extract_sections docC6 none, q.sectionId = "D6_SEC_0" → q = p :=
  claim_C6 docC6 none secC6beta (by decide) "D6_SEC_0" rfl

/-! ## Positional identifiers and orders -/

/-- Reading a mapped list at a position through an equation. -/
theorem map_eq_get {α β : Type _} {f : α → β} {l : List α} {g : List β}
    (h : l.map f = g) (k : Nat) (hk : k < l.length) (hk2 : k < g.length) :
    f (l.get ⟨k, hk⟩) = g.get ⟨k, hk2⟩ := by
  subst h
  simp

/-- The raw section at position `k` carries the identifier built from the
counter value `k`. -/
theorem raw_sections_ids_get (doc : Document) :
    ∀ (k : Nat) (hk : k < (raw_sections doc).length),
      ((raw_sections doc).get ⟨k, hk⟩).sectionId =
        doc.documentId ++ "_SEC_" ++ natDecimal k := by
  intro k hk
  obtain ⟨m, hm⟩ := segAux_ids doc.documentId
    (splitOnChar '\n' doc.fullText.data) 0 1 0 none []
  have hm' : (raw_sections doc).map (fun s => s.sectionId) =
      (List.range' 0 m).map (fun j => doc.documentId ++ "_SEC_" ++ natDecimal j) := hm
  have hk2 : k < ((List.range' 0 m).map
      (fun j => doc.documentId ++ "_SEC_" ++ natDecimal j)).length := by
    rw [← hm']
    simpa using hk
  have hstep := map_eq_get hm' k hk hk2
  rw [hstep]
  have hk3 : k < (List.range' 0 m).length := by simpa using hk2
  simp only [List.get_eq_getElem, List.getElem_map]
  rw [List.getElem_range'_1]
  simp

/-- The output orders are positional (helper shared by several claims). -/
theorem extract_sections_orders (doc : Document) (toc : Option TableOfContents) :
    (extract_sections doc toc).map (fun s => s.order) =
      List.range (extract_sections doc toc).length := by
  cases toc with
  | none =>
    have heq : extract_sections doc none =
        _build_hierarchy [] (renumber 0 (raw_sections doc)) := rfl
    rw [heq, bh_map_field (fun s => s.order) (fun s => rfl), renumber_orders,
      bh_length, renumber_length, List.range_eq_range']
  | some t =>
    have heq : extract_sections doc (some t) =
        _build_hierarchy [] (renumber 0 (_filter_toc_sections t (raw_sections doc))) := rfl
    rw [heq, bh_map_field (fun s => s.order) (fun s => rfl), renumber_orders,
      bh_length, renumber_length, List.range_eq_range']

/-- C7: the orders of the sections returned by `extract_sections` are
exactly `0, 1, ..., N-1` in list position order, after TOC filtering. -/
theorem claim_C7 (doc : Document) (toc : Option TableOfContents) :
    (extract_sections doc toc).map (fun s => s.order) =
      List.range (extract_sections doc toc).length :=
  extract_sections_orders doc toc

/-! ## Claim C10 -/

/-- Reading two equal lists at the same position. -/
theorem get_of_eq {α : Type _} {l l' : List α} (h : l = l') (k : Nat)
    (hk : k < l.length) (hk' : k < l'.length) :
    l.get ⟨k, hk⟩ = l'.get ⟨k, hk'⟩ := by
  subst h
  rfl

/-- The element at position `i` of a filtered list sits at some position
`k ≥ i` of the original list, with `i < k` as soon as some earlier element
was dropped. -/
theorem filter_get_spec {α : Type _} (p : α → Bool) :
    ∀ (l : List α) (i : Nat) (hi : i < (l.filter p).length),
      ∃ k, ∃ (hk : k < l.length),
        (l.filter p).get ⟨i, hi⟩ = l.get ⟨k, hk⟩ ∧ i ≤ k ∧
        ((∃ j, ∃ (hj : j < l.length), j < k ∧ p (l.get ⟨j, hj⟩) = false) → i < k) := by
  intro l
  induction l with
  | nil =>
    intro i hi
    simp at hi
  | cons a rest ih =>
    intro i hi
    by_cases hpa : p a
    · have hfc : (a :: rest).filter p = a :: rest.filter p := by
        rw [List.filter_cons, if_pos hpa]
      match i with
      | 0 =>
        refine ⟨0, Nat.succ_pos _, ?_, Nat.le_refl 0, ?_⟩
        · exact get_of_eq hfc 0 hi (by simp [hfc] at hi; simp)
        · rintro ⟨j, hj, hjk, _⟩
          omega
      | i + 1 =>
        have hi' : i < (rest.filter p).length := by
          have := hi
          rw [hfc] at this
          simpa using this
        obtain ⟨k, hk, hget, hik, himp⟩ := ih i hi'
        refine ⟨k + 1, Nat.succ_lt_succ hk, ?_, Nat.succ_le_succ hik, ?_⟩
        · have h1 : ((a :: rest).filter p).get ⟨i + 1, hi⟩ =
              (a :: rest.filter p).get ⟨i + 1, by rw [← hfc]; exact hi⟩ :=
            get_of_eq hfc (i + 1) hi (by rw [← hfc]; exact hi)
          rw [h1]
          simpa using hget
        · rintro ⟨j, hj, hjk, hpj⟩
          match j with
          | 0 =>
            rw [show (a :: rest).get ⟨0, hj⟩ = a from rfl, hpa] at hpj
            exact absurd hpj (Bool.noConfusion)
          | j + 1 =>
            have hj' : j < rest.length := by simpa using hj
            have : i < k := himp ⟨j, hj', by omega, by simpa using hpj⟩
            omega
    · have hfc : (a :: rest).filter p = rest.filter p := by
        rw [List.filter_cons, if_neg hpa]
      have hi' : i < (rest.filter p).length := by
        rw [hfc] at hi
        exact hi
      obtain ⟨k, hk, hget, hik, _⟩ := ih i hi'
      refine ⟨k + 1, Nat.succ_lt_succ hk, ?_, Nat.le_succ_of_le hik, fun _ => by omega⟩
      have h1 : ((a :: rest).filter p).get ⟨i, hi⟩ =
          (rest.filter p).get ⟨i, hi'⟩ := get_of_eq hfc i hi hi'
      rw [h1]
      simpa using hget

/-- C10: each raw (pre-filtering) section at position `k` has identifier
`documentId_SEC_k`, all identifiers of one output are pairwise distinct,
and a section retained under TOC filtering keeps the identifier of its
pre-filtering position `k ≥ i` while its order is re-assigned to its output
position `i`; if the filter removed an earlier section, the numeric suffix
differs from the re-assigned order. -/
theorem claim_C10 (doc : Document) (t : TableOfContents) :
    (∀ (k : Nat) (hk : k < (raw_sections doc).length),
      ((raw_sections doc).get ⟨k, hk⟩).sectionId =
        doc.documentId ++ "_SEC_" ++ natDecimal k) ∧
    (∀ toc : Option TableOfContents,
      ((extract_sections doc toc).map (fun s => s.sectionId)).Nodup) ∧
    (∀ (i : Nat) (hi : i < (extract_sections doc (some t)).length),
      ((extract_sections doc (some t)).get ⟨i, hi⟩).order = i ∧
      ∃ k, ∃ (hk : k < (raw_sections doc).length),
        ((extract_sections doc (some t)).get ⟨i, hi⟩).sectionId =
          doc.documentId ++ "_SEC_" ++ natDecimal k ∧
        i ≤ k ∧
        ((∃ j, ∃ (hj : j < (raw_sections doc).length), j < k ∧
            tocDiscards t ((raw_sections doc).get ⟨j, hj⟩)) → k ≠ i)) := by
  refine ⟨raw_sections_ids_get doc, extract_sections_ids_nodup doc, ?_⟩
  intro i hi
  have heq : extract_sections doc (some t) =
      _build_hierarchy []
        (renumber 0 (_filter_toc_sections t (raw_sections doc))) := rfl
  have hlenF : (extract_sections doc (some t)).length =
      (_filter_toc_sections t (raw_sections doc)).length := by
    rw [heq, bh_length, renumber_length]
  have hiF : i < (_filter_toc_sections t (raw_sections doc)).length := by
    rw [← hlenF]
    exact hi
  constructor
  · have hmapO := extract_sections_orders doc (some t)
    have h1 := map_eq_get hmapO i hi (by simpa using hi)
    rw [h1]
    simp
  · have hmapI : (extract_sections doc (some t)).map (fun s => s.sectionId) =
        (_filter_toc_sections t (raw_sections doc)).map (fun s => s.sectionId) := by
      rw [heq, bh_map_field (fun s => s.sectionId) (fun s => rfl),
        renumber_map_field (fun s => s.sectionId) (fun s i => rfl)]
    have h2 := map_eq_get hmapI i hi
      (by rw [List.length_map]; exact hiF)
    have h3 := map_eq_get
      (rfl : (_filter_toc_sections t (raw_sections doc)).map (fun s => s.sectionId) =
        (_filter_toc_sections t (raw_sections doc)).map (fun s => s.sectionId))
      i hiF (by rw [List.length_map]; exact hiF)
    have hsame : ((extract_sections doc (some t)).get ⟨i, hi⟩).sectionId =
        ((_filter_toc_sections t (raw_sections doc)).get ⟨i, hiF⟩).sectionId :=
      h2.trans h3.symm
    have hFeq : _filter_toc_sections t (raw_sections doc) =
        (raw_sections doc).filter (fun s => !decide (tocDiscards t s)) :=
      filter_toc_eq t _
    have hiF' : i < ((raw_sections doc).filter
        (fun s => !decide (tocDiscards t s))).length := by
      rw [← hFeq]
      exact hiF
    obtain ⟨k, hk, hget, hik, himp⟩ :=
      filter_get_spec (fun s => !decide (tocDiscards t s)) (raw_sections doc) i hiF'
    refine ⟨k, hk, ?_, hik, ?_⟩
    · rw [hsame, get_of_eq hFeq i hiF hiF', hget, raw_sections_ids_get doc k hk]
    · rintro ⟨j, hj, hjk, hdis⟩
      have hpj : (fun s => !decide (tocDiscards t s))
          ((raw_sections doc).get ⟨j, hj⟩) = false := by
        have hd : decide (tocDiscards t ((raw_sections doc).get ⟨j, hj⟩)) = true :=
          decide_eq_true hdis
        show (!decide (tocDiscards t ((raw_sections doc).get ⟨j, hj⟩))) = false
        rw [hd]
        rfl
      have := himp ⟨j, hj, hjk, hpj⟩
      omega

set_option maxRecDepth 8192 in
/-- Witness for C10 on `docC10` filtered through `tocC10`: the single
retained section sits at output position 0 with order 0 but keeps the
identifier C10_SEC_1 of its pre-filtering position 1, because the earlier
short section was removed. -/
theorem claim_C10_witness :
    ((raw_sections docC10).get ⟨0, by decide⟩).sectionId =
        docC10.documentId ++ "_SEC_" ++ natDecimal 0 ∧
    (((extract_sections docC10 (some tocC10)).get ⟨0, by decide⟩).order = 0 ∧
      ∃ k, ∃ (hk : k < (raw_sections docC10).length),
        ((extract_sections docC10 (some tocC10)).get ⟨0, by decide⟩).sectionId =
          docC10.documentId ++ "_SEC_" ++ natDecimal k ∧
        0 ≤ k ∧
        ((∃ j, ∃ (hj : j < (raw_sections docC10).length), j < k ∧
            tocDiscards tocC10 ((raw_sections docC10).get ⟨j, hj⟩)) → k ≠ 0)) :=
  ⟨(claim_C10 docC10 tocC10).1 0 (by decide),
    (claim_C10 docC10 tocC10).2.2 0 (by decide)⟩

/-! ## Claim C3 -/

/-- A validated method-2 candidate is below the page count. -/
theorem tocFirstSectionEnd_lt (pages : List (List Char)) (page2 : List Char)
    (e : Int) (m : String) (h : tocFirstSectionEnd pages page2 = some (e, m)) :
    e < (pages.length : Int) := by
  unfold tocFirstSectionEnd at h
  match hf : findFirstSectionNum page2 with
  | some c2 =>
    rw [hf] at h
    simp only [] at h
    by_cases hv2 : firstSectionValidated pages c2
    · rw [if_pos hv2] at h
      have hc : c2 ≤ pages.length := by
        rw [firstSectionValidated] at hv2
        have h1 := (Bool.and_eq_true _ _).mp hv2 |>.1
        exact of_decide_eq_true h1
      cases h
      omega
    · rw [if_neg hv2] at h
      exact absurd h (Option.noConfusion)
  | none =>
    rw [hf] at h
    exact absurd h (Option.noConfusion)

/-- A validated boundary candidate is below the page count. -/
theorem tocEndCandidate_lt (pages : List (List Char)) (page2 : List Char)
    (e : Int) (m : String) (h : tocEndCandidate pages page2 = some (e, m)) :
    e < (pages.length : Int) := by
  unfold tocEndCandidate at h
  match hp : findPremessaNum page2 with
  | some c =>
    rw [hp] at h
    simp only [] at h
    by_cases hv : premessaValidated pages c
    · rw [if_pos hv] at h
      have hc : c ≤ pages.length := by
        rw [premessaValidated] at hv
        have h1 := (Bool.and_eq_true _ _).mp hv |>.1
        exact of_decide_eq_true h1
      cases h
      omega
    · rw [if_neg hv] at h
      exact tocFirstSectionEnd_lt pages page2 e m h
  | none =>
    rw [hp] at h
    exact tocFirstSectionEnd_lt pages page2 e m h

/-- C3 counterexample: a two-page Circolare whose TOC page cites PREMESSA
at page 2 validates against the TOC page itself and produces a record with
`endPage = 1 < 2 = startPage`, refuting the invariant. -/
theorem claim_C3_counterexample :
    ∃ tc, extract_toc docC3 pagesC3 = some tc ∧
      tc.startPage = 2 ∧ tc.endPage = 1 ∧ ¬ tc.startPage ≤ tc.endPage := by
  refine ⟨tocC3bad, by decide, rfl, rfl, by decide⟩

/-- C3 amended: every TableOfContents returned by `extract_toc` has
`startPage = 2` and `endPage` below the page count; `startPage ≤ endPage`
is not guaranteed — it fails when the validated candidate page is 2 or
smaller. -/
theorem claim_C3_amended (doc : Document) (pages : List (List Char))
    (t : TableOfContents) (h : extract_toc doc pages = some t) :
    t.startPage = 2 ∧ t.endPage < (pages.length : Int) := by
  unfold extract_toc at h
  by_cases h1 : doc.type ≠ "Circolare"
  · rw [if_pos h1] at h
    exact absurd h (Option.noConfusion)
  · rw [if_neg h1] at h
    by_cases h2 : pages.length < 2
    · rw [if_pos h2] at h
      exact absurd h (Option.noConfusion)
    · rw [if_neg h2] at h
      simp only [] at h
      match hc : tocEndCandidate pages (pages.getD 1 []) with
      | none =>
        rw [hc] at h
        exact absurd h (Option.noConfusion)
      | some (e, m) =>
        rw [hc] at h
        cases h
        exact ⟨rfl, tocEndCandidate_lt pages (pages.getD 1 []) e m hc⟩

/-- Witness for C3 as amended at a well-formed three-page Circolare. -/
theorem claim_C3_amended_witness :
    tocC3good.startPage = 2 ∧ tocC3good.endPage < ((pagesC3ok.length : Int)) :=
  claim_C3_amended docC3 pagesC3ok tocC3good (by decide)

/-! ## Claim C9 -/

/-- The chunk contents are the closed buffers, stripped. -/
theorem chunkAux_eq_buffers (ck : Chunker) (s : Section) :
    ∀ (sents : List (List Char)) (cur : List Char) (idx : Nat),
      (chunkAux ck s sents cur idx).map (fun c => c.content.data) =
        (chunkBuffers ck sents cur).map trimChars := by
  intro sents
  induction sents with
  | nil =>
    intro cur idx
    rw [chunkAux, chunkBuffers]
    by_cases hcur : trimChars cur ≠ []
    · rw [if_pos hcur, if_pos hcur]
      rfl
    · rw [if_neg hcur, if_neg hcur]
      rfl
  | cons sent rest ih =>
    intro cur idx
    rw [chunkAux, chunkBuffers]
    by_cases hsplit :
        ck.chunk_size * chars_per_token < cur.length + sent.length ∧ cur ≠ []
    · rw [if_pos hsplit, if_pos hsplit, List.map_cons, List.map_cons, ih]
      rfl
    · rw [if_neg hsplit, if_neg hsplit, ih]

/-- Any buffer closed by the loop extends the buffer the loop started
with. -/
theorem chunkBuffers_head (ck : Chunker) :
    ∀ (sents : List (List Char)) (cur : List Char) (b : List Char),
      (chunkBuffers ck sents cur).head? = some b → ∃ t2, cur ++ t2 = b := by
  intro sents
  induction sents with
  | nil =>
    intro cur b hb
    rw [chunkBuffers] at hb
    by_cases hcur : trimChars cur ≠ []
    · rw [if_pos hcur] at hb
      cases hb
      exact ⟨[], List.append_nil cur⟩
    · rw [if_neg hcur] at hb
      exact absurd hb (Option.noConfusion)
  | cons sent rest ih =>
    intro cur b hb
    rw [chunkBuffers] at hb
    by_cases hsplit :
        ck.chunk_size * chars_per_token < cur.length + sent.length ∧ cur ≠ []
    · rw [if_pos hsplit] at hb
      cases hb
      exact ⟨[], List.append_nil cur⟩
    · rw [if_neg hsplit] at hb
      obtain ⟨t2, ht2⟩ := ih (cur ++ ' ' :: sent) b hb
      exact ⟨' ' :: sent ++ t2, by rw [← ht2, List.append_assoc]⟩

/-- Consecutive buffers closed by the loop: each one starts with the
overlap slice of the previous one. -/
theorem chunkBuffers_chain (ck : Chunker) :
    ∀ (sents : List (List Char)) (cur : List Char),
      List.Chain'
        (fun a b => ∃ t2,
          _get_overlap_text a (ck.overlap * chars_per_token) ++ t2 = b)
        (chunkBuffers ck sents cur) := by
  intro sents
  induction sents with
  | nil =>
    intro cur
    rw [chunkBuffers]
    by_cases hcur : trimChars cur ≠ []
    · rw [if_pos hcur]
      exact List.chain'_singleton cur
    · rw [if_neg hcur]
      exact List.chain'_nil
  | cons sent rest ih =>
    intro cur
    rw [chunkBuffers]
    by_cases hsplit :
        ck.chunk_size * chars_per_token < cur.length + sent.length ∧ cur ≠ []
    · rw [if_pos hsplit]
      refine (List.chain'_cons'.mpr ⟨?_, ih _⟩)
      intro b hb
      obtain ⟨t2, ht2⟩ := chunkBuffers_head ck rest
        (_get_overlap_text cur (ck.overlap * chars_per_token) ++ ' ' :: sent) b hb
      exact ⟨' ' :: sent ++ t2, by rw [← ht2, List.append_assoc]⟩
    · rw [if_neg hsplit]
      exact ih _

set_option maxRecDepth 16384 in
/-- C9 counterexample: under `ckC9` (overlap slice of 8 characters) the
first buffer of `secC9` ends in a space followed by QRSTUV and a final
dot, so the slice is " QRSTUV." and holds no sentence boundary; the second
chunk content is the stripped buffer "QRSTUV. BBBB." which does not begin
with that fragment. -/
theorem claim_C9_counterexample :
    (chunk_section ckC9 secC9).map (fun c => c.content.data) =
        [List.replicate 111 'A' ++ " QRSTUV.".data, "QRSTUV. BBBB.".data] ∧
      pyTail (' ' :: (List.replicate 111 'A' ++ " QRSTUV.".data))
          (ckC9.overlap * chars_per_token) = " QRSTUV.".data ∧
      findSentRest " QRSTUV.".data = none ∧
      List.isPrefixOf " QRSTUV.".data "QRSTUV. BBBB.".data = false := by
  refine ⟨by decide, by decide, by decide, by decide⟩

/-- C9 amended: for a section entering the splitting branch, the chunk
contents are the successive loop buffers stripped of surrounding
whitespace, and every buffer after the first begins with the overlap text
computed by `_get_overlap_text` from the previous buffer (the raw trailing
slice of `overlap × 4` characters advanced past the first sentence
boundary inside it, the whole previous buffer when it is no longer than
the slice or when the overlap is zero); the emitted chunk therefore begins
with the fragment only up to the stripping of the buffer. -/
theorem claim_C9_amended (ck : Chunker) (s : Section)
    (hov : ck.overlap < ck.chunk_size) (h100 : 100 ≤ s.content.length) :
    (chunk_section ck s).map (fun c => c.content.data) =
      (chunkBuffers ck (_split_into_sentences s.content.data) []).map trimChars ∧
    List.Chain'
      (fun a b => ∃ t2,
        _get_overlap_text a (ck.overlap * chars_per_token) ++ t2 = b)
      (chunkBuffers ck (_split_into_sentences s.content.data) []) := by
  constructor
  · have hguard : ¬(s.content.data = [] ∨ s.content.length < 100) := by
      push_neg
      refine ⟨fun hnil => ?_, by omega⟩
      have : s.content.length = 0 := by
        show s.content.data.length = 0
        rw [hnil]
        rfl
      omega
    rw [chunk_section, if_neg hguard]
    exact chunkAux_eq_buffers ck s _ [] 0
  · exact chunkBuffers_chain ck _ []

set_option maxRecDepth 16384 in
/-- Witness for C9 as amended at `secC9` under `ckC9`. -/
theorem claim_C9_amended_witness :
    (chunk_section ckC9 secC9).map (fun c => c.content.data) =
      (chunkBuffers ckC9 (_split_into_sentences secC9.content.data) []).map trimChars ∧
    List.Chain'
      (fun a b => ∃ t2,
        _get_overlap_text a (ckC9.overlap * chars_per_token) ++ t2 = b)
      (chunkBuffers ckC9 (_split_into_sentences secC9.content.data) []) :=
  claim_C9_amended ckC9 secC9 (by decide) (by decide)

end PdfTax
